import Mathlib

/-!
Verification development for the llm-proxy-web backend (Rust).

Strings are modelled as `List Char` (or Lean `String`, whose underlying data is a
`List Char`).  Rust byte positions are modelled with explicit UTF-8 widths
(`Char.utf8Size`).  External collaborators (the regex engine's match lists fed to
the PII masker, the filesystem canonicalizer, SHA-256 file hashing, the vector
store, the upstream LLM, the database) are modelled as explicit parameters or
oracles; everything else is translated from the source.
-/

set_option maxRecDepth 10000

namespace LlmProxy

/-! ## String primitives (Rust `str::contains` / `str::replace`) -/

/-- Rust `str::contains(pat)`: `pat` occurs as a contiguous substring of `s`. -/
def occursIn (pat : List Char) : List Char → Bool
  | [] => pat.isPrefixOf []
  | c :: t => pat.isPrefixOf (c :: t) || occursIn pat t

/-- Fuel-structured body of `replaceAll` (the recursion consumes at least one
character per step, so any fuel ≥ the input length computes the fixpoint; the
fuel only makes the definition structurally recursive). -/
def replaceAllF : Nat → List Char → List Char → List Char → List Char
  | 0, s, _, _ => s
  | _ + 1, [], _, _ => []
  | fuel + 1, c :: rest, pat, rep =>
    if !pat.isEmpty && pat.isPrefixOf (c :: rest) then
      rep ++ replaceAllF fuel ((c :: rest).drop pat.length) pat rep
    else
      c :: replaceAllF fuel rest pat rep

/-- Rust `str::replace(pat, rep)`: replace every leftmost non-overlapping
occurrence of `pat` by `rep`, scanning left to right.  (Rust inserts `rep`
between every character when `pat` is empty; the callers in this codebase only
ever pass non-empty regex matches, and for an empty `pat` this model is the
identity.) -/
def replaceAll (s pat rep : List Char) : List Char := replaceAllF s.length s pat rep

/-! ## PII detector (src/backend/src/filters/pii_detector.rs)

`detect_and_mask` runs five regex passes (Company → Email → Phone → Person →
Address) over the *original* text; for each match still present in the working
text it draws a fresh pseudonym from an RNG and replaces all occurrences.  The
regex engine and the RNG are external: the model receives the concatenated list
of `(real match, generated pseudonym)` pairs in processing order.  The
`HashMap` of mappings is modelled as an association list in insertion order;
`unmask` iterates the map in unspecified order, so the round-trip theorem
quantifies over every permutation of that list. -/

structure MaskResult where
  masked : List Char
  mappings : List (List Char × List Char)
deriving DecidableEq, Repr

/-- `PIIDetector::detect_and_mask`, with the regex matches and RNG outputs
supplied as the `pairs` parameter (`(real, fake)` in processing order).  A pair
is applied only when its match is still present in the working text. -/
def detect_and_mask (w : List Char) : List (List Char × List Char) → MaskResult
  | [] => ⟨w, []⟩
  | (real, fake) :: rest =>
    if occursIn real w then
      let res := detect_and_mask (replaceAll w real fake) rest
      ⟨res.masked, (fake, real) :: res.mappings⟩
    else
      detect_and_mask w rest

/-- `PIIDetector::unmask`: replace each fake by its real value, iterating the
mapping entries in the given order (the Rust `HashMap` iteration order is
unspecified). -/
def unmask (text : List Char) (mappings : List (List Char × List Char)) : List Char :=
  mappings.foldl (fun t p => replaceAll t p.1 p.2) text

/-! ## Output sanitizer (src/backend/src/filters/output_sanitizer.rs)

The five fixed regexes are embedded as syntax trees and executed by a small
backtracking matcher with the Rust `regex` crate's leftmost-first semantics
(earlier alternatives preferred, greedy quantifiers, `find_iter` scanning
leftmost non-overlapping matches). -/

inductive RE where
  | eps
  | cls (p : Char → Bool)
  | seq (a b : RE)
  | alt (a b : RE)
  | star (a : RE)
  | wb
  | eol

/-- Whitespace class `\s` (Unicode white space; the code points relevant to
this codebase: ASCII whitespace and the ideographic space U+3000). -/
def wsChar (c : Char) : Bool :=
  c == ' ' || c == '\t' || c == '\n' || c == '\r' ||
  c == Char.ofNat 11 || c == Char.ofNat 12 || c == Char.ofNat 0x3000

/-- Word character for `\b` (Rust `\w` is Unicode-aware; this covers ASCII
alphanumerics, underscore, kana and CJK ideographs — the scripts occurring in
this codebase's patterns and texts). -/
def wordChar (c : Char) : Bool :=
  c.isAlphanum || c == '_' ||
  (0x3040 ≤ c.toNat && c.toNat ≤ 0x30FF) ||
  (0x4E00 ≤ c.toNat && c.toNat ≤ 0x9FFF)

def atWordBoundary (prev : Option Char) (s : List Char) : Bool :=
  let pw := match prev with | none => false | some c => wordChar c
  let nw := match s with | [] => false | c :: _ => wordChar c
  pw != nw

/-- Backtracking matcher in continuation-passing style.  `prev` is the
character just before the current position (for `\b`); the continuation
receives the updated `prev` and the rest of the input; `fuel` bounds the
recursion (all uses are concrete evaluations with ample fuel). -/
def reM (fuel : Nat) (re : RE) (prev : Option Char) (s : List Char)
    (k : Option Char → List Char → Option (List Char)) : Option (List Char) :=
  match fuel with
  | 0 => none
  | fuel + 1 =>
    match re with
    | .eps => k prev s
    | .cls p =>
      match s with
      | [] => none
      | c :: t => if p c then k (some c) t else none
    | .seq a b => reM fuel a prev s (fun pv s2 => reM fuel b pv s2 k)
    | .alt a b =>
      match reM fuel a prev s k with
      | some r => some r
      | none => reM fuel b prev s k
    | .star a =>
      match reM fuel a prev s (fun pv s2 =>
          if s2.length < s.length then reM fuel (.star a) pv s2 k else none) with
      | some r => some r
      | none => k prev s
    | .wb => if atWordBoundary prev s then k prev s else none
    | .eol => match s with | [] => k prev s | _ :: _ => none

/-- Attempt a match anchored at the current position; returns the remaining
input after the (greedy, leftmost-first) match. -/
def reMatchEnd (re : RE) (prev : Option Char) (s : List Char) : Option (List Char) :=
  reM 2000 re prev s (fun _ rest => some rest)

/-- One combined `find_iter` + `replace_all` scan: returns the text with every
leftmost non-overlapping match replaced by `notice`, together with the list of
matched substrings in order. -/
def scanRE (fuel : Nat) (re : RE) (notice : List Char) (prev : Option Char)
    (s : List Char) : List Char × List (List Char) :=
  match fuel with
  | 0 => (s, [])
  | fuel + 1 =>
    match reMatchEnd re prev s with
    | some rest =>
      if rest.length < s.length then
        let m := s.take (s.length - rest.length)
        let r := scanRE fuel re notice (m.getLast?.orElse (fun _ => prev)) rest
        (notice ++ r.1, m :: r.2)
      else
        match s with
        | [] => ([], [])
        | c :: t =>
          let r := scanRE fuel re notice (some c) t
          (c :: r.1, r.2)
    | none =>
      match s with
      | [] => ([], [])
      | c :: t =>
        let r := scanRE fuel re notice (some c) t
        (c :: r.1, r.2)

def reSeq (rs : List RE) : RE := rs.foldr .seq .eps

def reAlt : List RE → RE
  | [] => .cls (fun _ => false)
  | [r] => r
  | r :: rs => .alt r (reAlt rs)

/-- Case-insensitive literal character (the `(?i)` flag; ASCII case folding
suffices for the letters appearing in these patterns). -/
def ciChar (c : Char) : RE := .cls (fun d => d.toLower == c.toLower)

/-- Case-insensitive literal string. -/
def litCI (s : String) : RE := reSeq (s.data.map ciChar)

def wsStar : RE := .star (.cls wsChar)

def wsPlus : RE := .seq (.cls wsChar) wsStar

def rePlus (r : RE) : RE := .seq r (.star r)

def reOpt (r : RE) : RE := .alt r .eps

/-- `\S` -/
def nonWs : RE := .cls (fun c => !wsChar c)

/-- `.` (any character except newline; `(?s)` is not set). -/
def dotAny : RE := .cls (fun c => c != '\n')

def lbraceChar : Char := Char.ofNat 123

/-- DESTRUCTIVE_SHELL. -/
def destructiveShell : RE := reAlt [
  reSeq [litCI "rm", wsPlus, litCI "-", rePlus (.cls (fun c => c.toLower == 'r' || c.toLower == 'f')), wsPlus, litCI "/"],
  reSeq [litCI "mkfs", .wb],
  reSeq [litCI "dd", wsPlus, litCI "if="],
  reSeq [litCI ">", wsStar, litCI "/dev/sd"],
  reSeq [litCI "fork", wsStar, litCI "bomb"],
  reSeq [litCI ":()", wsStar, .cls (fun c => c == lbraceChar)],
  reSeq [litCI "chmod", wsPlus, litCI "-r", wsPlus, litCI "777", wsPlus, litCI "/"],
  reSeq [litCI "shutdown", .cls wsChar],
  reSeq [litCI "reboot", .cls wsChar],
  reSeq [litCI "init", wsPlus, litCI "0"],
  reSeq [litCI "kill", wsPlus, litCI "-9", wsPlus, litCI "-1"]]

/-- DESTRUCTIVE_SQL. -/
def destructiveSql : RE := .seq .wb (reAlt [
  reSeq [litCI "drop", wsPlus, reAlt [litCI "table", litCI "database", litCI "schema", litCI "index"], .wb],
  reSeq [litCI "truncate", wsPlus, litCI "table", .wb],
  reSeq [litCI "delete", wsPlus, litCI "from", wsPlus, rePlus nonWs, wsStar, .alt (litCI ";") .eol],
  reSeq [litCI "alter", wsPlus, litCI "table", wsPlus, rePlus nonWs, wsPlus, litCI "drop", .wb],
  reSeq [litCI "update", wsPlus, rePlus nonWs, wsPlus, litCI "set", wsPlus, .star dotAny,
         litCI "where", wsPlus, litCI "1", wsStar, litCI "=", wsStar, litCI "1"]])

/-- SCRIPT_INJECTION. -/
def scriptInjection : RE := reAlt [
  reSeq [litCI "<script", .cls (fun c => wsChar c || c == '>')],
  reSeq [litCI "javascript", wsStar, litCI ":"],
  reSeq [litCI "on", reAlt [litCI "load", litCI "error", litCI "click"], wsStar, litCI "="],
  reSeq [litCI "eval", wsStar, litCI "("],
  reSeq [litCI "document.", reAlt [litCI "cookie", litCI "write"]],
  reSeq [litCI "window.", reAlt [litCI "location", litCI "open"]]]

/-- NETWORK_ATTACK. -/
def networkAttack : RE := reAlt [
  reSeq [litCI "nc", wsPlus, litCI "-", rePlus (.cls (fun c => c.toLower == 'e' || c.toLower == 'l' || c.toLower == 'p'))],
  reSeq [litCI "ncat", wsPlus, litCI "-", rePlus (.cls (fun c => c.toLower == 'e' || c.toLower == 'l' || c.toLower == 'p'))],
  reSeq [litCI "bash", wsPlus, litCI "-i", wsPlus, litCI ">&"],
  litCI "/dev/tcp/",
  reSeq [litCI "reverse", reOpt dotAny, litCI "shell"],
  reSeq [litCI "bind", reOpt dotAny, litCI "shell"],
  litCI "msfvenom",
  litCI "metasploit"]

/-- PRIVILEGE_ESCALATION. -/
def privilegeEscalation : RE := reAlt [
  reSeq [litCI "sudo", wsPlus, litCI "su", .wb],
  reSeq [litCI "passwd", wsPlus, litCI "root"],
  reSeq [litCI "chmod", wsPlus, .star (.cls (fun c => c.toLower == 'u' || c == '+')), litCI "s", .wb],
  litCI "setuid",
  litCI "/etc/shadow",
  reSeq [litCI "/etc/passwd", wsStar, litCI ">>"]]

def REDACTED_NOTICE : String := "[⚠ 安全上の理由により、危険なコマンドを除去しました]"

def sanitizePatterns : List (RE × String) := [
  (destructiveShell, "破壊的シェルコマンド"),
  (destructiveSql, "破壊的SQLコマンド"),
  (scriptInjection, "スクリプトインジェクション"),
  (networkAttack, "ネットワーク攻撃コマンド"),
  (privilegeEscalation, "権限昇格コマンド")]

def sanitizeStep (acc : String × List String) (pr : RE × String) : String × List String :=
  let scanned := scanRE (acc.1.data.length + 1) pr.1 REDACTED_NOTICE.data none acc.1.data
  (⟨scanned.1⟩, acc.2 ++ scanned.2.map (fun m => pr.2 ++ ": " ++ ⟨m⟩))

/-- `OutputSanitizer::sanitize`: apply the five patterns in order, recording
each match and replacing it with the redaction notice. -/
def sanitize (text : String) : String × List String :=
  sanitizePatterns.foldl sanitizeStep (text, [])

/-! ## Chunker (src/backend/src/indexer/chunker.rs)

The Rust code works with byte positions into a UTF-8 string; the model keeps
the text as `List Char` and tracks byte positions through each character's
UTF-8 width (`Char.utf8Size`). -/

structure TextChunk where
  text : List Char
  chunk_index : Nat
deriving DecidableEq, Repr

/-- UTF-8 byte width of a character. -/
def width (c : Char) : Nat := c.utf8Size

/-- Byte length of a text (`str::len`). -/
def blen : List Char → Nat
  | [] => 0
  | c :: t => width c + blen t

/-- `str::is_char_boundary`: the byte position is the byte length of some
character prefix. -/
def boundaryB : List Char → Nat → Bool
  | _, 0 => true
  | [], _ + 1 => false
  | c :: t, n + 1 => if width c ≤ n + 1 then boundaryB t (n + 1 - width c) else false

/-- `ceil_char_boundary`: the smallest char boundary ≥ `pos`, capped at the
byte length (the Rust function first caps `byte_pos` at `len`, then advances to
the next boundary). -/
def ceil_char_boundary : List Char → Nat → Nat
  | [], _ => 0
  | c :: t, pos => if pos = 0 then 0 else width c + ceil_char_boundary t (pos - width c)

/-- `floor_char_boundary`: the largest char boundary ≤ `pos`, capped at the
byte length. -/
def floor_char_boundary : List Char → Nat → Nat
  | [], _ => 0
  | c :: t, pos => if pos < width c then 0 else width c + floor_char_boundary t (pos - width c)

/-- Characters starting within the first `n` bytes (`&s[..n]` for a boundary
`n`). -/
def takeB : List Char → Nat → List Char
  | [], _ => []
  | c :: t, n => if n = 0 then [] else c :: takeB t (n - width c)

/-- Characters after the first `n` bytes (`&s[n..]` for a boundary `n`). -/
def dropB : List Char → Nat → List Char
  | [], _ => []
  | c :: t, n => if n = 0 then c :: t else dropB t (n - width c)

/-- `&text[a..b]` for byte positions `a ≤ b` on char boundaries. -/
def sliceB (l : List Char) (a b : Nat) : List Char := takeB (dropB l a) (b - a)

/-- `str::rfind(pat)`: byte offset of the start of the rightmost occurrence. -/
def rfindBGo (pat : List Char) : List Char → Nat → Option Nat → Option Nat
  | [], acc, best => if pat.isPrefixOf [] then some acc else best
  | c :: t, acc, best =>
    rfindBGo pat t (acc + width c) (if pat.isPrefixOf (c :: t) then some acc else best)

def rfindB (s pat : List Char) : Option Nat := rfindBGo pat s 0 none

/-- Rust `str::trim` (`char::is_whitespace`; also covering the ideographic
space and vertical tab/form feed explicitly). -/
def isWS (c : Char) : Bool :=
  c.isWhitespace || c == Char.ofNat 0x3000 || c == Char.ofNat 11 || c == Char.ofNat 12

def trim (l : List Char) : List Char :=
  ((l.dropWhile isWS).reverse.dropWhile isWS).reverse

/-- `find_break_point`: scan the segment `text[start..max_end]` from the right
for the first break in the priority order `"\n\n"`, `"\n"`, the six sentence
sentinels (in order), then a space; the break point lies just past the
separator (`start + pos + sentinel.len()`, the sentinel's UTF-8 byte length;
the Rust `for` loop over the sentinel array is unrolled here). -/
def find_break_point (text : List Char) (start maxEnd : Nat) : Nat :=
  match rfindB (sliceB text start maxEnd) ['\n', '\n'] with
  | some pos => start + pos + 2
  | none =>
  match rfindB (sliceB text start maxEnd) ['\n'] with
  | some pos => start + pos + 1
  | none =>
  match rfindB (sliceB text start maxEnd) "。".data with
  | some pos => start + pos + blen "。".data
  | none =>
  match rfindB (sliceB text start maxEnd) "？".data with
  | some pos => start + pos + blen "？".data
  | none =>
  match rfindB (sliceB text start maxEnd) "！".data with
  | some pos => start + pos + blen "！".data
  | none =>
  match rfindB (sliceB text start maxEnd) ". ".data with
  | some pos => start + pos + blen ". ".data
  | none =>
  match rfindB (sliceB text start maxEnd) "? ".data with
  | some pos => start + pos + blen "? ".data
  | none =>
  match rfindB (sliceB text start maxEnd) "! ".data with
  | some pos => start + pos + blen "! ".data
  | none =>
  match rfindB (sliceB text start maxEnd) [' '] with
  | some pos => start + pos + 1
  | none => maxEnd

/-- The loop-body local `end` / `actual_end` of `chunk_text`:
`end = ceil_char_boundary(min(start + max_chunk_size, len))`, and the break
point is sought only when `end < len`. -/
def chunkActualEnd (text : List Char) (maxChunkSize start : Nat) : Nat :=
  if ceil_char_boundary text (min (start + maxChunkSize) (blen text)) < blen text then
    find_break_point text start
      (ceil_char_boundary text (min (start + maxChunkSize) (blen text)))
  else ceil_char_boundary text (min (start + maxChunkSize) (blen text))

/-- The loop-body local `next_start`:
`floor_char_boundary(actual_end - overlap)` when `actual_end > overlap`, else
`actual_end`. -/
def chunkNextStart (text : List Char) (overlap actualEnd : Nat) : Nat :=
  if overlap < actualEnd then floor_char_boundary text (actualEnd - overlap)
  else actualEnd

/-- The next value of the loop cursor `start`: `next_start` if it makes
forward progress, otherwise `actual_end`. -/
def chunkStart2 (text : List Char) (maxChunkSize overlap start : Nat) : Nat :=
  if chunkNextStart text overlap (chunkActualEnd text maxChunkSize start) ≤ start then
    chunkActualEnd text maxChunkSize start
  else chunkNextStart text overlap (chunkActualEnd text maxChunkSize start)

/-- The main chunking loop of `chunk_text`.  `fuel` bounds the number of
iterations: the Rust loop makes strict byte progress whenever
`max_chunk_size ≥ 1` (for `max_chunk_size = 0` it never terminates), so any
fuel ≥ the byte length reproduces the loop exactly on the terminating
inputs. -/
def chunkLoop (text : List Char) (maxChunkSize overlap : Nat) :
    Nat → Nat → Nat → List TextChunk
  | 0, _, _ => []
  | fuel + 1, start, chunkIndex =>
    if start < blen text then
      if (trim (sliceB text start (chunkActualEnd text maxChunkSize start))).isEmpty then
        chunkLoop text maxChunkSize overlap fuel
          (chunkStart2 text maxChunkSize overlap start) chunkIndex
      else
        ⟨trim (sliceB text start (chunkActualEnd text maxChunkSize start)), chunkIndex⟩ ::
          chunkLoop text maxChunkSize overlap fuel
            (chunkStart2 text maxChunkSize overlap start) (chunkIndex + 1)
    else []

/-- `chunk_text`. -/
def chunk_text (text : List Char) (maxChunkSize overlap : Nat) : List TextChunk :=
  if (trim text).isEmpty then []
  else if blen (trim text) ≤ maxChunkSize then [⟨trim text, 0⟩]
  else chunkLoop (trim text) maxChunkSize overlap (blen (trim text) + 1) 0 0

/-! ## Index manager (src/backend/src/rag/index_manager.rs) -/

structure IndexStatus where
  is_indexing : Bool
  last_indexed_at : Option Nat
  total_files : Nat
  total_chunks : Nat
  failed_files : List String
  auto_index_interval_minutes : Nat
  last_error : Option String
deriving DecidableEq, Repr

/-- The outcome of one execution of the `do_index` body inside the panic
catcher: completed with counters (the status-counter update happens inside
`do_index` just before it returns `Ok`), returned an error, or panicked. -/
inductive PassOutcome where
  | ok (files chunks : Nat) (failed : List String)
  | err (msg : String)
  | panicked (msg : String)
deriving DecidableEq, Repr

/-- `IndexManager::run_index` as a state transformer.  The mutex-guarded
check-and-set, the body execution under `catch_unwind`, and the final
status/error handling are sequentialized (the Rust lock is never held across
the body).  Returns the new status, the call's result, and whether a pass was
started. -/
def run_index (st : IndexStatus) (outcome : PassOutcome) (now : Nat) :
    IndexStatus × Except String Unit × Bool :=
  if st.is_indexing then
    (st, .error "Indexing already in progress", false)
  else
    let st1 := { st with is_indexing := true, last_error := none, failed_files := [] }
    match outcome with
    | .ok files chunks failed =>
      let st2 := { st1 with total_files := files, total_chunks := chunks, failed_files := failed }
      ({ st2 with is_indexing := false, last_indexed_at := some now, last_error := none },
        .ok (), true)
    | .err m =>
      let msg := "Indexing error: " ++ m
      ({ st1 with is_indexing := false, last_error := some msg }, .error msg, true)
    | .panicked m =>
      let msg := "Indexing panicked: " ++ m
      ({ st1 with is_indexing := false, last_error := some msg }, .error msg, true)

/-- The prefix of a point id before the first `_`
(`id.split('_').next().unwrap_or("")`). -/
def hashPart (id : String) : String := ⟨id.data.takeWhile (fun c => c != '_')⟩

/-- The stale ids computed by `do_index`: ids whose hash part is not the hash
of any file seen by the walker. -/
def staleIds (existingFileHashes allIds : List String) : List String :=
  allIds.filter (fun id => !existingFileHashes.contains (hashPart id))

/-- `VectorStore::delete_points` on a collection modelled as its list of point
ids. -/
def delete_points (store ids : List String) : List String :=
  store.filter (fun id => !ids.contains id)

/-- The stale-cleanup step of `do_index`: scroll all ids, filter the stale
ones, delete them (deleting an empty list is a no-op, so the `is_empty` guard
in the code does not change the result). -/
def cleanupStale (existingFileHashes store : List String) : List String :=
  delete_points store (staleIds existingFileHashes store)

/-! ## Path safety (src/backend/src/rag/index_manager.rs)

`Path::canonicalize` is a filesystem operation; it is modelled as an oracle
`canon : String → Option String` (`none` = error).  `Path::join` and
`Path::parent` are modelled lexically on `/`-separated path strings (the
claim's inputs are relative, non-absolute paths), and `Path::starts_with` as a
string prefix test. -/

def strContains (s pat : String) : Bool := occursIn pat.data s.data

def pathJoin (base rel : String) : String := base ++ "/" ++ rel

/-- Lexical `Path::parent`: the part before the last `/`, if any. -/
def parentOf (p : String) : Option String :=
  if p.data.contains '/' then
    some ⟨((p.data.reverse.dropWhile (fun c => c != '/')).drop 1).reverse⟩
  else none

/-- `IndexManager::safe_resolve`. -/
def safe_resolve (canon : String → Option String) (base rel : String) :
    Except String String :=
  if rel = "" then .ok base
  else
    match canon (pathJoin base rel) with
    | none => .error "Invalid path"
    | some c =>
      match canon base with
      | none => .error "Upload dir error"
      | some b =>
        if !b.data.isPrefixOf c.data then .error "Path traversal not allowed"
        else .ok c

/-- `IndexManager::safe_resolve_new`. -/
def safe_resolve_new (canon : String → Option String) (base rel : String) :
    Except String String :=
  if rel = "" then .error "Path cannot be empty"
  else if strContains rel ".." then .error "Path traversal not allowed"
  else
    let target := pathJoin base rel
    match parentOf target with
    | none => .ok target
    | some par =>
      if par = base then .ok target
      else
        match canon par with
        | none => .error "Parent directory does not exist"
        | some pc =>
          match canon base with
          | none => .error "Upload dir error"
          | some b =>
            if !b.data.isPrefixOf pc.data then .error "Path traversal not allowed"
            else .ok target

/-! ## Versioning (src/backend/src/rag/versioning.rs)

The per-file version store is modelled by the meta entry list plus the set of
on-disk payload files (keyed by version number and timestamp).  Filesystem I/O
other than the existence precondition is assumed to succeed. -/

def MAX_VERSIONS : Nat := 10

structure VersionEntry where
  version : Nat
  created_at : Nat
  size : Nat
  comment : String
deriving DecidableEq, Repr

structure VersionState where
  versions : List VersionEntry
  payloads : List (Nat × Nat)
deriving DecidableEq, Repr

structure TargetFile where
  pathExists : Bool
  isFile : Bool
  size : Nat
deriving DecidableEq, Repr

/-- `find_version_file` + `remove_file`: remove the (first) payload file named
`v<n>_*`. -/
def removePayload : List (Nat × Nat) → Nat → List (Nat × Nat)
  | [], _ => []
  | p :: t, v => if p.1 = v then t else p :: removePayload t v

/-- The `while meta.versions.len() >= MAX_VERSIONS` eviction loop: drop the
head entry and its on-disk payload. -/
def evictWhileFull : List VersionEntry → List (Nat × Nat) →
    List VersionEntry × List (Nat × Nat)
  | [], ps => ([], ps)
  | oldest :: rest, ps =>
    if (oldest :: rest).length ≥ MAX_VERSIONS then
      evictWhileFull rest (removePayload ps oldest.version)
    else (oldest :: rest, ps)

/-- `save_version`: on failure the state is returned unchanged (the Rust
function bails before touching the filesystem). -/
def save_version (file : TargetFile) (st : VersionState) (comment : String) (now : Nat) :
    VersionState × Except String Nat :=
  if !(file.pathExists && file.isFile) then
    (st, .error "File does not exist")
  else
    let nextVersion := match st.versions.getLast? with
      | some v => v.version + 1
      | none => 1
    let evicted := evictWhileFull st.versions st.payloads
    let entry : VersionEntry := ⟨nextVersion, now, file.size, comment⟩
    (⟨evicted.1 ++ [entry], evicted.2 ++ [(nextVersion, now)]⟩, .ok nextVersion)

/-- `n` sequential successful `save_version` calls (the timestamp counter only
names the payload files). -/
def iterateSaves (file : TargetFile) : Nat → VersionState → VersionState
  | 0, st => st
  | n + 1, st => iterateSaves file n (save_version file st "" n).1

/-! ## Log store (src/backend/src/logger.rs)

`query_logs` builds its SQL by string interpolation; the model reproduces the
statement text construction exactly (only single quotes in `search_term` are
doubled). -/

def sq : String := ⟨[Char.ofNat 39]⟩

def escapeQuotes (s : String) : String := ⟨replaceAll s.data sq.data (sq.data ++ sq.data)⟩

structure LogQuery where
  start_date : Option String
  end_date : Option String
  search_term : Option String
  limit : Option Int
  offset : Option Int
deriving DecidableEq, Repr

def whereClauses (q : LogQuery) : List String :=
  ["1=1"]
  ++ (match q.start_date with
      | some s => ["timestamp >= " ++ sq ++ s ++ sq]
      | none => [])
  ++ (match q.end_date with
      | some e => ["timestamp <= " ++ sq ++ e ++ sq]
      | none => [])
  ++ (match q.search_term with
      | some s => ["(original_input ILIKE " ++ sq ++ "%" ++ escapeQuotes s ++ "%" ++ sq
          ++ " OR final_output ILIKE " ++ sq ++ "%" ++ escapeQuotes s ++ "%" ++ sq ++ ")"]
      | none => [])

/-- The SQL statement text submitted by `query_logs`. -/
def query_logs_sql (q : LogQuery) : String :=
  "SELECT * FROM prompt_logs WHERE "
  ++ String.intercalate " AND " (whereClauses q)
  ++ " ORDER BY timestamp DESC LIMIT " ++ toString (q.limit.getD 50)
  ++ " OFFSET " ++ toString (q.offset.getD 0)

/-- The COUNT statement text submitted by `query_logs`. -/
def query_logs_count_sql (q : LogQuery) : String :=
  "SELECT COUNT(*) as count FROM prompt_logs WHERE "
  ++ String.intercalate " AND " (whereClauses q)

/-! ## Chat completion pipeline (src/backend/src/main.rs)

The handler is modelled as a function of the request and the outcomes of its
effectful steps (RAG retrieval, the masker's RNG-dependent output, the
upstream call, the audit-log insert).  The returned `Bool` records whether the
audit row was written (the insert both happened and succeeded). -/

structure Message where
  role : String
  content : String
deriving DecidableEq, Repr

structure ChatRequest where
  model : String
  messages : List Message
deriving DecidableEq, Repr

structure Choice where
  index : Nat
  message : Message
  finish_reason : String
deriving DecidableEq, Repr

structure ChatResponse where
  id : String
  created : Int
  model : String
  choices : List Choice
deriving DecidableEq, Repr

/-- `request.messages.iter().filter(|m| m.role == "user").last()`. -/
def lastUserMessage (ms : List Message) : Option Message :=
  (ms.filter (fun m => m.role == "user")).getLast?

def replaceStr (s pat rep : String) : String := ⟨replaceAll s.data pat.data rep.data⟩

/-- `PIIDetector::unmask` on Lean strings. -/
def unmaskStr (t : String) (mappings : List (String × String)) : String :=
  mappings.foldl (fun acc p => replaceStr acc p.1 p.2) t

def setFirstUser : List Message → String → List Message
  | [], _ => []
  | m :: rest, c =>
    if m.role == "user" then { m with content := c } :: rest
    else m :: setFirstUser rest c

/-- Replace the content of the last message with role `"user"`. -/
def setLastUser (ms : List Message) (c : String) : List Message :=
  (setFirstUser ms.reverse c).reverse

/-- `chat_completion_handler`.  `ragEnabled` models `state.rag_engine`
presence; `ragOutcome` the `retrieve_context` result; `maskFn` the
(RNG-dependent) `detect_and_mask` output; `llmOutcome` the upstream call on
the forwarded messages; `logOutcome` the audit insert.  Result: HTTP response
(`Except (status, message) response`) and whether the audit row was written. -/
def chat_completion_handler (req : ChatRequest) (ragEnabled : Bool)
    (ragOutcome : Except String String)
    (maskFn : String → String × List (String × String))
    (llmOutcome : List Message → Except String ChatResponse)
    (logOutcome : Except String Unit) :
    Except (Nat × String) ChatResponse × Bool :=
  match lastUserMessage req.messages with
  | none => (.error (400, "No user message found"), false)
  | some userMessage =>
    let originalContent := userMessage.content
    match (if ragEnabled then ragOutcome else .ok "") with
    | .error e => (.error (500, "RAG error: " ++ e), false)
    | .ok ragContext =>
      let textToMask :=
        if ragContext ≠ "" then ragContext ++ originalContent else originalContent
      let masked := maskFn textToMask
      let forwarded := setLastUser req.messages masked.1
      match llmOutcome forwarded with
      | .error e => (.error (502, "LiteLLM error: " ++ e), false)
      | .ok llmResponse =>
        let finalResponse :=
          match llmResponse.choices with
          | [] => llmResponse
          | c :: rest =>
            let unmasked := unmaskStr c.message.content masked.2
            let sanitized := sanitize unmasked
            { llmResponse with
              choices := { c with message := { c.message with content := sanitized.1 } } :: rest }
        match logOutcome with
        | .error e => (.error (500, "Logging error: " ++ e), false)
        | .ok _ => (.ok finalResponse, true)

/-! ## Theorems -/

/-! ### `replaceAll` lemmas (towards the C1 mask round-trip) -/

theorem replaceAllF_congr (pat rep : List Char) :
    ∀ (f1 : Nat), ∀ (f2 : Nat) (s : List Char), s.length ≤ f1 → s.length ≤ f2 →
      replaceAllF f1 s pat rep = replaceAllF f2 s pat rep := by
  intro f1
  induction f1 with
  | zero =>
    intro f2 s h1 _
    have hs : s = [] := List.length_eq_zero.mp (Nat.le_zero.mp h1)
    subst hs
    cases f2 <;> rfl
  | succ f1 ih =>
    intro f2 s h1 h2
    cases s with
    | nil => cases f2 <;> rfl
    | cons c rest =>
      cases f2 with
      | zero => simp at h2
      | succ f2 =>
        simp only [replaceAllF]
        have hplen : (!pat.isEmpty && pat.isPrefixOf (c :: rest)) = true → 1 ≤ pat.length := by
          intro h
          cases pat with
          | nil => simp at h
          | cons a l => simp
        by_cases h : (!pat.isEmpty && pat.isPrefixOf (c :: rest)) = true
        · rw [if_pos h, if_pos h]
          congr 1
          apply ih
          · simp only [List.length_drop, List.length_cons]
            simp only [List.length_cons] at h1
            have := hplen h
            omega
          · simp only [List.length_drop, List.length_cons]
            simp only [List.length_cons] at h2
            have := hplen h
            omega
        · rw [if_neg h, if_neg h]
          congr 1
          apply ih
          · simp only [List.length_cons] at h1
            omega
          · simp only [List.length_cons] at h2
            omega

theorem replaceAll_nil (pat rep : List Char) : replaceAll [] pat rep = [] := rfl

theorem replaceAll_pos (c : Char) (rest pat rep : List Char) (hp : pat ≠ [])
    (hpre : pat <+: (c :: rest)) :
    replaceAll (c :: rest) pat rep
      = rep ++ replaceAll ((c :: rest).drop pat.length) pat rep := by
  have hcond : (!pat.isEmpty && pat.isPrefixOf (c :: rest)) = true := by
    simp [List.isPrefixOf_iff_prefix, hpre, hp]
  show replaceAllF (rest.length + 1) (c :: rest) pat rep = _
  rw [replaceAllF, if_pos hcond]
  congr 1
  apply replaceAllF_congr
  · have : 1 ≤ pat.length := List.length_pos.mpr hp
    simp only [List.length_drop, List.length_cons]
    omega
  · exact Nat.le_refl _

theorem replaceAll_neg (c : Char) (rest pat rep : List Char)
    (h : ¬ (pat ≠ [] ∧ pat <+: (c :: rest))) :
    replaceAll (c :: rest) pat rep = c :: replaceAll rest pat rep := by
  have hcond : ¬ ((!pat.isEmpty && pat.isPrefixOf (c :: rest)) = true) := by
    intro hc
    rw [Bool.and_eq_true] at hc
    refine h ⟨?_, ?_⟩
    · intro he
      subst he
      simp at hc
    · exact List.isPrefixOf_iff_prefix.mp hc.2
  show replaceAllF (rest.length + 1) (c :: rest) pat rep = _
  rw [replaceAllF, if_neg hcond]
  rfl

theorem mem_replaceAll (pat rep : List Char) :
    ∀ (n : Nat) (s : List Char), s.length ≤ n →
      ∀ a ∈ replaceAll s pat rep, a ∈ s ∨ a ∈ rep := by
  intro n
  induction n with
  | zero =>
    intro s h a ha
    have hs : s = [] := List.length_eq_zero.mp (Nat.le_zero.mp h)
    subst hs
    simp [replaceAll_nil] at ha
  | succ n ih =>
    intro s h a ha
    cases s with
    | nil => simp [replaceAll_nil] at ha
    | cons c rest =>
      by_cases hc : pat ≠ [] ∧ pat <+: (c :: rest)
      · rw [replaceAll_pos c rest pat rep hc.1 hc.2] at ha
        rcases List.mem_append.mp ha with hrep | hrec
        · exact Or.inr hrep
        · have hlen : ((c :: rest).drop pat.length).length ≤ n := by
            have : 1 ≤ pat.length := List.length_pos.mpr hc.1
            simp only [List.length_drop, List.length_cons]
            simp only [List.length_cons] at h
            omega
          rcases ih _ hlen a hrec with hin | hin
          · exact Or.inl (List.mem_of_mem_drop hin)
          · exact Or.inr hin
      · rw [replaceAll_neg c rest pat rep hc] at ha
        rcases List.mem_cons.mp ha with rfl | ha'
        · exact Or.inl (List.mem_cons_self _ _)
        · have hlen : rest.length ≤ n := by
            simp only [List.length_cons] at h
            omega
          rcases ih rest hlen a ha' with hin | hin
          · exact Or.inl (List.mem_cons_of_mem _ hin)
          · exact Or.inr hin

theorem mem_replaceAll_of_mem (pat rep : List Char) (s : List Char) (a : Char)
    (ha : a ∈ replaceAll s pat rep) : a ∈ s ∨ a ∈ rep :=
  mem_replaceAll pat rep s.length s (Nat.le_refl _) a ha

/-- If the head of the pattern does not occur in `u`, `replaceAll` commutes
with prepending `u`. -/
theorem replaceAll_append_left (fh : Char) (ft r2 : List Char) :
    ∀ (u v : List Char), fh ∉ u →
      replaceAll (u ++ v) (fh :: ft) r2 = u ++ replaceAll v (fh :: ft) r2 := by
  intro u
  induction u with
  | nil => intro v _; rfl
  | cons c u' ih =>
    intro v hnotin
    have hne : fh ≠ c := fun he => hnotin (he ▸ List.mem_cons_self c u')
    have hnp : ¬ ((fh :: ft) ≠ [] ∧ (fh :: ft) <+: (c :: (u' ++ v))) := by
      rintro ⟨-, hpre⟩
      exact hne (List.cons_prefix_cons.mp hpre).1
    rw [List.cons_append, replaceAll_neg c (u' ++ v) (fh :: ft) r2 hnp,
      ih v (fun hm => hnotin (List.mem_cons_of_mem _ hm)), List.cons_append]

/-- The single-pair round trip: replacing `r` by a fake whose head character
does not occur in `w`, then replacing the fake back by `r`, restores `w`. -/
theorem replaceAll_roundtrip (r : List Char) (fh : Char) (ft : List Char) (hr : r ≠ []) :
    ∀ (n : Nat) (w : List Char), w.length ≤ n → fh ∉ w →
      replaceAll (replaceAll w r (fh :: ft)) (fh :: ft) r = w := by
  intro n
  induction n with
  | zero =>
    intro w hw _
    have hs : w = [] := List.length_eq_zero.mp (Nat.le_zero.mp hw)
    subst hs
    rfl
  | succ n ih =>
    intro w hw hfh
    cases w with
    | nil => rfl
    | cons c rest =>
      by_cases hpre : r <+: (c :: rest)
      · rw [replaceAll_pos c rest r (fh :: ft) hr hpre]
        set w' := (c :: rest).drop r.length with hw'
        set M := replaceAll w' r (fh :: ft) with hM
        have hfire : (fh :: ft) <+: (fh :: (ft ++ M)) :=
          List.cons_prefix_cons.mpr ⟨rfl, List.prefix_append ft M⟩
        rw [show (fh :: ft) ++ M = fh :: (ft ++ M) from rfl,
          replaceAll_pos fh (ft ++ M) (fh :: ft) r (by simp) hfire]
        have hdrop : (fh :: (ft ++ M)).drop (fh :: ft).length = M := by
          rw [show fh :: (ft ++ M) = (fh :: ft) ++ M from rfl, List.drop_left]
        rw [hdrop]
        have hlen : w'.length ≤ n := by
          have : 1 ≤ r.length := List.length_pos.mpr hr
          rw [hw']
          simp only [List.length_drop, List.length_cons]
          simp only [List.length_cons] at hw
          omega
        have hfh' : fh ∉ w' := fun hm => hfh (List.mem_of_mem_drop (hw' ▸ hm))
        rw [hM, ih w' hlen hfh']
        obtain ⟨t, ht⟩ := hpre
        have : w' = t := by rw [hw', ← ht, List.drop_left]
        rw [this, ht]
      · rw [replaceAll_neg c rest r (fh :: ft) (fun hand => hpre hand.2)]
        have hnfire : ¬ ((fh :: ft) ≠ [] ∧
            (fh :: ft) <+: (c :: replaceAll rest r (fh :: ft))) := by
          rintro ⟨-, hp2⟩
          exact hfh ((List.cons_prefix_cons.mp hp2).1 ▸ List.mem_cons_self c rest)
        rw [replaceAll_neg c (replaceAll rest r (fh :: ft)) (fh :: ft) r hnfire]
        have hlen : rest.length ≤ n := by
          simp only [List.length_cons] at hw
          omega
        rw [ih rest hlen (fun hm => hfh (List.mem_cons_of_mem _ hm))]

/-- A pattern `p` sharing no character with `r` that prefixes
`replaceAll w f r` already prefixes `w`. -/
theorem prefix_of_prefix_replaceAll (f r : List Char) (hf : f ≠ []) (hr : r ≠ []) :
    ∀ (n : Nat) (w p : List Char), w.length ≤ n → (∀ c ∈ p, c ∉ r) →
      p <+: replaceAll w f r → p <+: w := by
  intro n
  induction n with
  | zero =>
    intro w p hw _ hp
    have hs : w = [] := List.length_eq_zero.mp (Nat.le_zero.mp hw)
    subst hs
    rw [replaceAll_nil] at hp
    exact hp
  | succ n ih =>
    intro w p hw hd hp
    cases w with
    | nil =>
      rw [replaceAll_nil] at hp
      exact hp
    | cons c rest =>
      by_cases hpre : f <+: (c :: rest)
      · rw [replaceAll_pos c rest f r hf hpre] at hp
        cases p with
        | nil => exact List.nil_prefix
        | cons ph pt =>
          obtain ⟨rh, rt, hrr⟩ : ∃ rh rt, r = rh :: rt := by
            cases r with
            | nil => exact absurd rfl hr
            | cons rh rt => exact ⟨rh, rt, rfl⟩
          rw [hrr, List.cons_append] at hp
          have hph : ph = rh := (List.cons_prefix_cons.mp hp).1
          exact absurd (hrr ▸ hph ▸ List.mem_cons_self rh rt)
            (hd ph (List.mem_cons_self _ _))
      · rw [replaceAll_neg c rest f r (fun hand => hpre hand.2)] at hp
        cases p with
        | nil => exact List.nil_prefix
        | cons ph pt =>
          obtain ⟨hph, hpt⟩ := List.cons_prefix_cons.mp hp
          have hlen : rest.length ≤ n := by
            simp only [List.length_cons] at hw
            omega
          have := ih rest pt hlen (fun c2 hc2 => hd c2 (List.mem_cons_of_mem _ hc2)) hpt
          exact List.cons_prefix_cons.mpr ⟨hph, this⟩

/-- Replacement steps for pairs with character-disjoint fakes (and fakes
disjoint from the other pair's real) commute. -/
theorem replaceAll_comm (f r f2 r2 : List Char) (hf : f ≠ []) (hr : r ≠ [])
    (hf2 : f2 ≠ []) (hr2 : r2 ≠ [])
    (dff2 : ∀ c ∈ f, c ∉ f2) (dfr2 : ∀ c ∈ f, c ∉ r2) (df2r : ∀ c ∈ f2, c ∉ r) :
    ∀ (n : Nat) (w : List Char), w.length ≤ n →
      replaceAll (replaceAll w f r) f2 r2 = replaceAll (replaceAll w f2 r2) f r := by
  have df2f : ∀ c ∈ f2, c ∉ f := fun c hc hcf => dff2 c hcf hc
  obtain ⟨fh, ftl, rfl⟩ : ∃ fh ftl, f = fh :: ftl := by
    cases f with
    | nil => exact absurd rfl hf
    | cons fh ftl => exact ⟨fh, ftl, rfl⟩
  obtain ⟨gh, gtl, rfl⟩ : ∃ gh gtl, f2 = gh :: gtl := by
    cases f2 with
    | nil => exact absurd rfl hf2
    | cons gh gtl => exact ⟨gh, gtl, rfl⟩
  intro n
  induction n with
  | zero =>
    intro w hw
    have hs : w = [] := List.length_eq_zero.mp (Nat.le_zero.mp hw)
    subst hs
    rfl
  | succ n ih =>
    intro w hw
    cases w with
    | nil => rfl
    | cons c rest =>
      by_cases hpf : (fh :: ftl) <+: (c :: rest)
      · -- f fires at the head; f2 cannot (disjoint heads)
        set d := (c :: rest).drop (fh :: ftl).length with hd
        have hsplit : c :: rest = (fh :: ftl) ++ d := by
          obtain ⟨t, ht⟩ := hpf
          rw [hd, ← ht, List.drop_left]
        have hdlen : d.length ≤ n := by
          rw [hd]
          simp only [List.length_drop, List.length_cons]
          simp only [List.length_cons] at hw
          omega
        rw [replaceAll_pos c rest (fh :: ftl) r hf hpf, ← hd]
        rw [replaceAll_append_left gh gtl r2 r _ (df2r gh (List.mem_cons_self _ _))]
        rw [ih d hdlen]
        conv_rhs => rw [hsplit]
        rw [show ((fh :: ftl) ++ d : List Char) = fh :: (ftl ++ d) from rfl]
        rw [show (fh :: (ftl ++ d) : List Char) = (fh :: ftl) ++ d from rfl]
        rw [replaceAll_append_left gh gtl r2 (fh :: ftl) d
          (df2f gh (List.mem_cons_self _ _))]
        rw [show ((fh :: ftl) ++ replaceAll d (gh :: gtl) r2 : List Char)
          = fh :: (ftl ++ replaceAll d (gh :: gtl) r2) from rfl]
        rw [replaceAll_pos fh (ftl ++ replaceAll d (gh :: gtl) r2) (fh :: ftl) r hf
          (List.cons_prefix_cons.mpr ⟨rfl, List.prefix_append _ _⟩)]
        rw [show (fh :: (ftl ++ replaceAll d (gh :: gtl) r2) : List Char)
          = (fh :: ftl) ++ replaceAll d (gh :: gtl) r2 from rfl, List.drop_left]
      · by_cases hpf2 : (gh :: gtl) <+: (c :: rest)
        · -- f2 fires at the head; f cannot
          set d := (c :: rest).drop (gh :: gtl).length with hd
          have hsplit : c :: rest = (gh :: gtl) ++ d := by
            obtain ⟨t, ht⟩ := hpf2
            rw [hd, ← ht, List.drop_left]
          have hdlen : d.length ≤ n := by
            rw [hd]
            simp only [List.length_drop, List.length_cons]
            simp only [List.length_cons] at hw
            omega
          rw [replaceAll_pos c rest (gh :: gtl) r2 hf2 hpf2, ← hd]
          rw [replaceAll_append_left fh ftl r r2 _ (dfr2 fh (List.mem_cons_self _ _))]
          rw [← ih d hdlen]
          conv_lhs => rw [hsplit]
          rw [show ((gh :: gtl) ++ d : List Char) = gh :: (gtl ++ d) from rfl]
          rw [show (gh :: (gtl ++ d) : List Char) = (gh :: gtl) ++ d from rfl]
          rw [replaceAll_append_left fh ftl r (gh :: gtl) d
            (dff2 fh (List.mem_cons_self _ _))]
          rw [show ((gh :: gtl) ++ replaceAll d (fh :: ftl) r : List Char)
            = gh :: (gtl ++ replaceAll d (fh :: ftl) r) from rfl]
          rw [replaceAll_pos gh (gtl ++ replaceAll d (fh :: ftl) r) (gh :: gtl) r2 hf2
            (List.cons_prefix_cons.mpr ⟨rfl, List.prefix_append _ _⟩)]
          rw [show (gh :: (gtl ++ replaceAll d (fh :: ftl) r) : List Char)
            = (gh :: gtl) ++ replaceAll d (fh :: ftl) r from rfl, List.drop_left]
        · -- neither fires at the head
          have hlen : rest.length ≤ n := by
            simp only [List.length_cons] at hw
            omega
          rw [replaceAll_neg c rest (fh :: ftl) r (fun hand => hpf hand.2)]
          have hno2 : ¬ ((gh :: gtl) ≠ [] ∧
              (gh :: gtl) <+: (c :: replaceAll rest (fh :: ftl) r)) := by
            rintro ⟨-, hcon⟩
            rw [← replaceAll_neg c rest (fh :: ftl) r (fun hand => hpf hand.2)] at hcon
            exact hpf2 (prefix_of_prefix_replaceAll (fh :: ftl) r hf hr
              (c :: rest).length (c :: rest) (gh :: gtl) (Nat.le_refl _) df2r hcon)
          rw [replaceAll_neg c (replaceAll rest (fh :: ftl) r) (gh :: gtl) r2 hno2]
          rw [replaceAll_neg c rest (gh :: gtl) r2 (fun hand => hpf2 hand.2)]
          have hno1 : ¬ ((fh :: ftl) ≠ [] ∧
              (fh :: ftl) <+: (c :: replaceAll rest (gh :: gtl) r2)) := by
            rintro ⟨-, hcon⟩
            rw [← replaceAll_neg c rest (gh :: gtl) r2 (fun hand => hpf2 hand.2)] at hcon
            exact hpf (prefix_of_prefix_replaceAll (gh :: gtl) r2 hf2 hr2
              (c :: rest).length (c :: rest) (fh :: ftl) (Nat.le_refl _) dfr2 hcon)
          rw [replaceAll_neg c (replaceAll rest (gh :: gtl) r2) (fh :: ftl) r hno1]
          rw [ih rest hlen]

/-! ### `unmask` / `detect_and_mask` lemmas and the C1 round trip -/

theorem unmask_nil (t : List Char) : unmask t [] = t := rfl

theorem unmask_cons (t : List Char) (p : List Char × List Char)
    (ms : List (List Char × List Char)) :
    unmask t (p :: ms) = unmask (replaceAll t p.1 p.2) ms := rfl

theorem unmask_append (t : List Char) (a b : List (List Char × List Char)) :
    unmask t (a ++ b) = unmask (unmask t a) b := by
  simp [unmask, List.foldl_append]

/-- A mapping pair commuting with every element of `b` can be moved from the
front of the unmask order to the back. -/
theorem unmask_cons_move (p : List Char × List Char) :
    ∀ (b : List (List Char × List Char)) (w : List Char),
      (∀ q ∈ b, ∀ v : List Char,
        replaceAll (replaceAll v p.1 p.2) q.1 q.2
          = replaceAll (replaceAll v q.1 q.2) p.1 p.2) →
      unmask w (p :: b) = unmask w (b ++ [p]) := by
  intro b
  induction b with
  | nil => intro w _; rfl
  | cons q b' ih =>
    intro w hcomm
    show unmask (replaceAll (replaceAll w p.1 p.2) q.1 q.2) b'
        = unmask (replaceAll w q.1 q.2) (b' ++ [p])
    rw [hcomm q (List.mem_cons_self _ _) w]
    exact ih (replaceAll w q.1 q.2) (fun q' hq' => hcomm q' (List.mem_cons_of_mem _ hq'))

/-- Every recorded mapping `(fake, real)` comes from one of the supplied
`(real, fake)` pairs. -/
theorem detect_mappings_spec :
    ∀ (ps : List (List Char × List Char)) (w : List Char) (m : List Char × List Char),
      m ∈ (detect_and_mask w ps).mappings → (m.2, m.1) ∈ ps := by
  intro ps
  induction ps with
  | nil =>
    intro w m hm
    simp [detect_and_mask] at hm
  | cons p rest ih =>
    intro w m hm
    obtain ⟨real, fake⟩ := p
    by_cases hg : occursIn real w = true
    · simp only [detect_and_mask, hg, if_true] at hm
      rcases List.mem_cons.mp hm with heq | hm'
      · subst heq
        exact List.mem_cons_self _ _
      · exact List.mem_cons_of_mem _ (ih _ m hm')
    · rw [Bool.not_eq_true] at hg
      simp only [detect_and_mask, hg, Bool.false_eq_true, if_false] at hm
      exact List.mem_cons_of_mem _ (ih _ m hm)

/-- Every character of the masked text comes from the input text or from one
of the supplied fakes. -/
theorem detect_masked_chars :
    ∀ (ps : List (List Char × List Char)) (w : List Char) (a : Char),
      a ∈ (detect_and_mask w ps).masked → a ∈ w ∨ ∃ p ∈ ps, a ∈ p.2 := by
  intro ps
  induction ps with
  | nil =>
    intro w a ha
    simp only [detect_and_mask] at ha
    exact Or.inl ha
  | cons p rest ih =>
    intro w a ha
    obtain ⟨real, fake⟩ := p
    by_cases hg : occursIn real w = true
    · simp only [detect_and_mask, hg, if_true] at ha
      rcases ih _ a ha with hw' | ⟨q, hq, hqa⟩
      · rcases mem_replaceAll_of_mem real fake w a hw' with hw | hf
        · exact Or.inl hw
        · exact Or.inr ⟨(real, fake), List.mem_cons_self _ _, hf⟩
      · exact Or.inr ⟨q, List.mem_cons_of_mem _ hq, hqa⟩
    · rw [Bool.not_eq_true] at hg
      simp only [detect_and_mask, hg, Bool.false_eq_true, if_false] at ha
      rcases ih _ a ha with hw | ⟨q, hq, hqa⟩
      · exact Or.inl hw
      · exact Or.inr ⟨q, List.mem_cons_of_mem _ hq, hqa⟩

theorem mask_roundtrip_aux :
    ∀ (pairs : List (List Char × List Char)) (text : List Char)
      (ms : List (List Char × List Char)),
      (∀ p ∈ pairs, p.1 ≠ []) →
      (∀ p ∈ pairs, p.2 ≠ []) →
      (∀ p ∈ pairs, ∀ c ∈ p.2, c ∉ text) →
      (∀ p ∈ pairs, ∀ q ∈ pairs, ∀ c ∈ p.2, c ∉ q.1) →
      pairs.Pairwise (fun p q => ∀ c ∈ p.2, c ∉ q.2) →
      ms.Perm (detect_and_mask text pairs).mappings →
      unmask (detect_and_mask text pairs).masked ms = text := by
  intro pairs
  induction pairs with
  | nil =>
    intro text ms _ _ _ _ _ hperm
    simp only [detect_and_mask] at hperm ⊢
    rw [List.perm_nil.mp hperm]
    rfl
  | cons p rest ih =>
    intro text ms hnr hnf hft hfr hffd hperm
    obtain ⟨real, fake⟩ := p
    have hrne : real ≠ [] := hnr (real, fake) (List.mem_cons_self _ _)
    have hfne : fake ≠ [] := hnf (real, fake) (List.mem_cons_self _ _)
    obtain ⟨hhead, htail⟩ := List.pairwise_cons.mp hffd
    by_cases hg : occursIn real text = true
    · have hmashape : (detect_and_mask text ((real, fake) :: rest)).masked
          = (detect_and_mask (replaceAll text real fake) rest).masked := by
        simp [detect_and_mask, hg]
      have hmapshape : (detect_and_mask text ((real, fake) :: rest)).mappings
          = (fake, real) :: (detect_and_mask (replaceAll text real fake) rest).mappings := by
        simp [detect_and_mask, hg]
      rw [hmashape]
      rw [hmapshape] at hperm
      have hnr' : ∀ q ∈ rest, q.1 ≠ [] := fun q hq => hnr q (List.mem_cons_of_mem _ hq)
      have hnf' : ∀ q ∈ rest, q.2 ≠ [] := fun q hq => hnf q (List.mem_cons_of_mem _ hq)
      have hft' : ∀ q ∈ rest, ∀ c ∈ q.2, c ∉ replaceAll text real fake := by
        intro q hq c hc hcw
        rcases mem_replaceAll_of_mem real fake text c hcw with hctext | hcfake
        · exact hft q (List.mem_cons_of_mem _ hq) c hc hctext
        · exact hhead q hq c hcfake hc
      have hfr' : ∀ p2 ∈ rest, ∀ q ∈ rest, ∀ c ∈ p2.2, c ∉ q.1 := fun p2 hp2 q hq =>
        hfr p2 (List.mem_cons_of_mem _ hp2) q (List.mem_cons_of_mem _ hq)
      have hmem : (fake, real) ∈ ms := hperm.mem_iff.mpr (List.mem_cons_self _ _)
      obtain ⟨a, b, rfl⟩ := List.append_of_mem hmem
      have hperm2 : (a ++ b).Perm
          (detect_and_mask (replaceAll text real fake) rest).mappings :=
        (List.perm_middle.symm.trans hperm).cons_inv
      have hsub : ∀ q ∈ a ++ b, (q.2, q.1) ∈ rest := fun q hq =>
        detect_mappings_spec rest _ q (hperm2.subset hq)
      have hcomm : ∀ q ∈ b, ∀ v : List Char,
          replaceAll (replaceAll v fake real) q.1 q.2
            = replaceAll (replaceAll v q.1 q.2) fake real := by
        intro q hq v
        have hqrest : (q.2, q.1) ∈ rest := hsub q (List.mem_append_right a hq)
        exact replaceAll_comm fake real q.1 q.2 hfne hrne
          (hnf' (q.2, q.1) hqrest) (hnr' (q.2, q.1) hqrest)
          (hhead (q.2, q.1) hqrest)
          (fun c hc => hfr (real, fake) (List.mem_cons_self _ _) (q.2, q.1)
            (List.mem_cons_of_mem _ hqrest) c hc)
          (fun c hc => hfr (q.2, q.1) (List.mem_cons_of_mem _ hqrest) (real, fake)
            (List.mem_cons_self _ _) c hc)
          v.length v (Nat.le_refl _)
      have hmove : unmask (detect_and_mask (replaceAll text real fake) rest).masked
            (a ++ (fake, real) :: b)
          = unmask (detect_and_mask (replaceAll text real fake) rest).masked
            (a ++ (b ++ [(fake, real)])) := by
        rw [unmask_append, unmask_append]
        exact unmask_cons_move (fake, real) b _ hcomm
      rw [hmove, show a ++ (b ++ [(fake, real)]) = (a ++ b) ++ [(fake, real)] from
        (List.append_assoc a b [(fake, real)]).symm, unmask_append]
      rw [ih (replaceAll text real fake) (a ++ b) hnr' hnf' hft' hfr' htail hperm2]
      obtain ⟨fh, ftl, rfl⟩ : ∃ fh ftl, fake = fh :: ftl := by
        cases fake with
        | nil => exact absurd rfl hfne
        | cons fh ftl => exact ⟨fh, ftl, rfl⟩
      show replaceAll (replaceAll text real (fh :: ftl)) (fh :: ftl) real = text
      exact replaceAll_roundtrip real fh ftl hrne text.length text (Nat.le_refl _)
        (hft (real, fh :: ftl) (List.mem_cons_self _ _) fh (List.mem_cons_self _ _))
    · rw [Bool.not_eq_true] at hg
      have hshape : detect_and_mask text ((real, fake) :: rest)
          = detect_and_mask text rest := by
        simp [detect_and_mask, hg]
      rw [hshape] at hperm ⊢
      exact ih text ms (fun q hq => hnr q (List.mem_cons_of_mem _ hq))
        (fun q hq => hnf q (List.mem_cons_of_mem _ hq))
        (fun q hq => hft q (List.mem_cons_of_mem _ hq))
        (fun p2 hp2 q hq =>
          hfr p2 (List.mem_cons_of_mem _ hp2) q (List.mem_cons_of_mem _ hq))
        htail hperm

/-- C1 (counterexample): string-level distinctness of the pseudonyms is not
enough for the round trip.  Here the pseudonym `"QQ"` differs from the match
`"b"` and does not occur in the remaining text `"PQ"` (the text with the match
removed), yet masking `"PQb"` yields `"PQQQ"`, where the replacement has
spliced the pseudonym against an adjacent `Q` of the text and created an
earlier occurrence of `"QQ"`; `unmask` (leftmost non-overlapping
`str::replace`) rewrites that occurrence and returns `"PbQ"` ≠ `"PQb"`. -/
theorem c1_counterexample :
    (['Q', 'Q'] : List Char) ≠ ['b'] ∧
    occursIn ['Q', 'Q'] (replaceAll ['P', 'Q', 'b'] ['b'] []) = false ∧
    unmask (detect_and_mask ['P', 'Q', 'b'] [(['b'], ['Q', 'Q'])]).masked
        (detect_and_mask ['P', 'Q', 'b'] [(['b'], ['Q', 'Q'])]).mappings
      ≠ ['P', 'Q', 'b'] := by
  decide

/-- C1 (amended): the mask round trip.  `pairs` is the list of `(regex match,
generated pseudonym)` pairs the five category passes feed to
`detect_and_mask`, in processing order.  The claim's string-level side
condition (pseudonyms pairwise distinct and distinct from the remaining text)
does not suffice — replacement can splice a pseudonym against adjacent text
and create an occurrence that `unmask` rewrites at the wrong place — so the
hypotheses here are the character-level freshness that does suffice: all
matches and pseudonyms are non-empty and the pseudonyms' characters occur
neither in the input text, nor in any match, nor in any other pseudonym.
Under these hypotheses `unmask` applied to the masked text with the returned
mappings (in any iteration order of the `HashMap`, i.e. any permutation `ms`
of the recorded mapping list) restores the input text character for
character. -/
theorem c1_mask_roundtrip (text : List Char) (pairs ms : List (List Char × List Char))
    (hreal_ne : ∀ p ∈ pairs, p.1 ≠ [])
    (hfake_ne : ∀ p ∈ pairs, p.2 ≠ [])
    (hfake_fresh : ∀ p ∈ pairs, ∀ c ∈ p.2, c ∉ text)
    (hfake_real : ∀ p ∈ pairs, ∀ q ∈ pairs, ∀ c ∈ p.2, c ∉ q.1)
    (hfake_fake : pairs.Pairwise (fun p q => ∀ c ∈ p.2, c ∉ q.2))
    (hperm : ms.Perm (detect_and_mask text pairs).mappings) :
    unmask (detect_and_mask text pairs).masked ms = text :=
  mask_roundtrip_aux pairs text ms hreal_ne hfake_ne hfake_fresh hfake_real
    hfake_fake hperm

theorem c1_witness :
    unmask (detect_and_mask ['a', 'b', ' ', 'a', 'b'] [(['a', 'b'], ['X', 'Y'])]).masked
        [(['X', 'Y'], ['a', 'b'])]
      = ['a', 'b', ' ', 'a', 'b'] :=
  c1_mask_roundtrip ['a', 'b', ' ', 'a', 'b'] [(['a', 'b'], ['X', 'Y'])]
    [(['X', 'Y'], ['a', 'b'])]
    (by decide) (by decide) (by decide) (by decide) (by decide) (by decide)

/-- C2: `run_index` is single-flight: if `is_indexing` is already true the
call fails with the already-indexing error without starting a pass (the status
is untouched), and a call that does start a pass leaves `is_indexing = false`
afterwards whether the pass succeeded, returned an error, or panicked. -/
theorem c2_run_index_single_flight (st : IndexStatus) (outcome : PassOutcome) (now : Nat) :
    (st.is_indexing = true →
      run_index st outcome now = (st, .error "Indexing already in progress", false)) ∧
    (st.is_indexing = false →
      (run_index st outcome now).1.is_indexing = false) := by
  constructor
  · intro h
    simp [run_index, h]
  · intro h
    cases outcome <;> simp [run_index, h]

theorem c2_witness :
    run_index ⟨true, none, 0, 0, [], 60, none⟩ (.ok 1 2 []) 7
      = (⟨true, none, 0, 0, [], 60, none⟩, .error "Indexing already in progress", false) ∧
    (run_index ⟨false, none, 0, 0, [], 60, none⟩ (.panicked "boom") 7).1.is_indexing = false :=
  ⟨(c2_run_index_single_flight ⟨true, none, 0, 0, [], 60, none⟩ (.ok 1 2 []) 7).1 rfl,
   (c2_run_index_single_flight ⟨false, none, 0, 0, [], 60, none⟩ (.panicked "boom") 7).2 rfl⟩

/-- C3: `safe_resolve_new` rejects the empty string, any input containing
`..`, and any input whose parent directory (when distinct from the upload dir)
canonicalizes outside the canonical upload dir; a successful `safe_resolve`
always returns a path under the canonical upload dir; and
`safe_resolve "../etc/passwd"` errors for every canonicalizer that resolves
the `..` outside the base (or fails). -/
theorem c3_path_safety :
    (∀ (canon : String → Option String) (base : String),
      safe_resolve_new canon base "" = .error "Path cannot be empty") ∧
    (∀ (canon : String → Option String) (base rel : String),
      strContains rel ".." = true →
      safe_resolve_new canon base rel = .error "Path traversal not allowed") ∧
    (∀ (canon : String → Option String) (base rel p b : String),
      safe_resolve canon base rel = .ok p → rel ≠ "" → canon base = some b →
      b.data.isPrefixOf p.data = true) ∧
    (∀ (canon : String → Option String) (base : String),
      (∀ c, canon (pathJoin base "../etc/passwd") = some c →
        ∀ b, canon base = some b → b.data.isPrefixOf c.data = false) →
      ∃ e, safe_resolve canon base "../etc/passwd" = .error e) ∧
    (∀ (canon : String → Option String) (base rel par pc b : String),
      rel ≠ "" → strContains rel ".." = false →
      parentOf (pathJoin base rel) = some par → par ≠ base →
      canon par = some pc → canon base = some b →
      b.data.isPrefixOf pc.data = false →
      safe_resolve_new canon base rel = .error "Path traversal not allowed") := by
  refine ⟨?_, ?_, ?_, ?_, ?_⟩
  · intro canon base
    simp [safe_resolve_new]
  · intro canon base rel h
    have hne : rel ≠ "" := by
      intro he
      subst he
      simp [strContains, occursIn, List.isPrefixOf] at h
    simp [safe_resolve_new, hne, h]
  · intro canon base rel p b hok hne hb
    cases hj : canon (pathJoin base rel) with
    | none => simp [safe_resolve, hne, hj] at hok
    | some c =>
      simp only [safe_resolve, hne, hj, hb, if_neg] at hok
      by_cases hpre : b.data.isPrefixOf c.data = true
      · simp only [hpre, Bool.not_true, Bool.false_eq_true, if_false] at hok
        cases hok
        exact hpre
      · rw [Bool.not_eq_true] at hpre
        simp [hpre] at hok
  · intro canon base h
    have hne : ("../etc/passwd" : String) ≠ "" := by decide
    cases hj : canon (pathJoin base "../etc/passwd") with
    | none => exact ⟨"Invalid path", by simp [safe_resolve, hne, hj]⟩
    | some c =>
      cases hb : canon base with
      | none => exact ⟨"Upload dir error", by simp [safe_resolve, hne, hj, hb]⟩
      | some b =>
        have hp := h c hj b hb
        exact ⟨"Path traversal not allowed", by simp [safe_resolve, hne, hj, hb, hp]⟩
  · intro canon base rel par pc b hne hdd hpar hparne hpc hb hpre
    simp [safe_resolve_new, hne, hdd, hpar, hparne, hpc, hb, hpre]

theorem c3_witness :
    safe_resolve_new (fun _ => none) "up" "" = .error "Path cannot be empty" ∧
    safe_resolve_new (fun _ => none) "up" "a/../../b" = .error "Path traversal not allowed" ∧
    "up".data.isPrefixOf "up/d".data = true ∧
    (∃ e, safe_resolve (fun _ => none) "up" "../etc/passwd" = .error e) ∧
    safe_resolve_new
        (fun s => if s = "up" then some "/r" else if s = "up/d" then some "/x" else none)
        "up" "d/e" = .error "Path traversal not allowed" :=
  ⟨c3_path_safety.1 (fun _ => none) "up",
   c3_path_safety.2.1 (fun _ => none) "up" "a/../../b" (by decide),
   c3_path_safety.2.2.1 (fun s => some s) "up" "d" "up/d" "up"
     (by simp [safe_resolve, pathJoin]) (by decide) rfl,
   c3_path_safety.2.2.2.1 (fun _ => none) "up" (fun c h => by simp at h),
   c3_path_safety.2.2.2.2
     (fun s => if s = "up" then some "/r" else if s = "up/d" then some "/x" else none)
     "up" "d/e" "up/d" "/x" "/r"
     (by decide) (by decide) (by decide) (by decide) (by decide) (by decide) (by decide)⟩

/-- C4: after the stale-cleanup step, every surviving point id has a hash part
among the hashes of the files the walker saw; in particular no id with the
hash prefix of a deleted (hence unseen) file remains. -/
theorem c4_stale_cleanup (existing store : List String) :
    (∀ id ∈ cleanupStale existing store, existing.contains (hashPart id) = true) ∧
    (∀ h, existing.contains h = false →
      ∀ id ∈ cleanupStale existing store, hashPart id ≠ h) := by
  have main : ∀ id ∈ cleanupStale existing store, existing.contains (hashPart id) = true := by
    intro id hid
    simp only [cleanupStale, delete_points, List.mem_filter, Bool.not_eq_true'] at hid
    obtain ⟨hmem, hnot⟩ := hid
    by_contra hcon
    rw [Bool.not_eq_true] at hcon
    have hstale : id ∈ staleIds existing store := by
      simp only [staleIds, List.mem_filter]
      exact ⟨hmem, by rw [hcon]; rfl⟩
    have htrue : (staleIds existing store).contains id = true := List.elem_iff.mpr hstale
    rw [htrue] at hnot
    cases hnot
  refine ⟨main, fun h hh id hid heq => ?_⟩
  have := main id hid
  rw [heq] at this
  rw [this] at hh
  exact absurd hh (by simp)

theorem c4_witness :
    (["aa"].contains (hashPart "aa_0") = true) ∧ hashPart "aa_0" ≠ "bb" :=
  ⟨(c4_stale_cleanup ["aa"] ["aa_0", "bb_0"]).1 "aa_0" (by decide),
   (c4_stale_cleanup ["aa"] ["aa_0", "bb_0"]).2 "bb" (by decide) "aa_0" (by decide)⟩

/-- C5: the audit row is written only when every pipeline step succeeded: an
error response implies no row was written, a written row implies a successful
log insert and an `ok` response, and an upstream failure surfaces as 502 with
no row written. -/
theorem c5_audit_row_only_on_success (req : ChatRequest) (ragEnabled : Bool)
    (ragOutcome : Except String String)
    (maskFn : String → String × List (String × String))
    (llmOutcome : List Message → Except String ChatResponse)
    (logOutcome : Except String Unit) :
    ((chat_completion_handler req ragEnabled ragOutcome maskFn llmOutcome logOutcome).2 = true →
      logOutcome = .ok () ∧
      ∃ r, (chat_completion_handler req ragEnabled ragOutcome maskFn llmOutcome logOutcome).1
          = .ok r) ∧
    (∀ code msg,
      (chat_completion_handler req ragEnabled ragOutcome maskFn llmOutcome logOutcome).1
          = .error (code, msg) →
      (chat_completion_handler req ragEnabled ragOutcome maskFn llmOutcome logOutcome).2
          = false) ∧
    (∀ m, lastUserMessage req.messages = some m →
      ∀ ragContext, (if ragEnabled then ragOutcome else .ok "") = .ok ragContext →
      ∀ e, llmOutcome (setLastUser req.messages
              (maskFn (if ragContext = "" then m.content else ragContext ++ m.content)).1)
          = .error e →
      chat_completion_handler req ragEnabled ragOutcome maskFn llmOutcome logOutcome
          = (.error (502, "LiteLLM error: " ++ e), false)) := by
  cases hm : lastUserMessage req.messages with
  | none =>
    refine ⟨?_, ?_, ?_⟩
    · intro h
      simp [chat_completion_handler, hm] at h
    · intro code msg _
      simp [chat_completion_handler, hm]
    · intro m hm2
      cases hm2
  | some m =>
    cases hr : (if ragEnabled then ragOutcome else (Except.ok "" : Except String String)) with
    | error e =>
      refine ⟨?_, ?_, ?_⟩
      · intro h
        simp [chat_completion_handler, hm, hr] at h
      · intro code msg _
        simp [chat_completion_handler, hm, hr]
      · intro m2 hm2 ragContext hrc
        cases hm2
        cases hrc
    | ok ragContext =>
      cases hl : llmOutcome (setLastUser req.messages
          (maskFn (if ragContext = "" then m.content else ragContext ++ m.content)).1) with
      | error e =>
        refine ⟨?_, ?_, ?_⟩
        · intro h
          simp [chat_completion_handler, hm, hr, hl] at h
        · intro code msg _
          simp [chat_completion_handler, hm, hr, hl]
        · intro m2 hm2 rc2 hrc2 e2 hl2
          cases hm2
          cases hrc2
          rw [hl] at hl2
          cases hl2
          simp [chat_completion_handler, hm, hr, hl]
      | ok resp =>
        cases hlog : logOutcome with
        | error e =>
          refine ⟨?_, ?_, ?_⟩
          · intro h
            simp [chat_completion_handler, hm, hr, hl, hlog] at h
          · intro code msg _
            simp [chat_completion_handler, hm, hr, hl, hlog]
          · intro m2 hm2 rc2 hrc2 e2 hl2
            cases hm2
            cases hrc2
            rw [hl] at hl2
            cases hl2
        | ok u =>
          refine ⟨?_, ?_, ?_⟩
          · intro _
            refine ⟨by cases u; rfl, ?_⟩
            simp [chat_completion_handler, hm, hr, hl]
          · intro code msg hcontra
            simp [chat_completion_handler, hm, hr, hl, hlog] at hcontra
          · intro m2 hm2 rc2 hrc2 e2 hl2
            cases hm2
            cases hrc2
            rw [hl] at hl2
            cases hl2

theorem c5_witness :
    chat_completion_handler ⟨"m", [⟨"user", "hi"⟩]⟩ false (.ok "") (fun s => (s, []))
        (fun _ => .error "boom") (.ok ())
      = (.error (502, "LiteLLM error: boom"), false) :=
  (c5_audit_row_only_on_success ⟨"m", [⟨"user", "hi"⟩]⟩ false (.ok "") (fun s => (s, []))
      (fun _ => .error "boom") (.ok ())).2.2 ⟨"user", "hi"⟩ rfl "" rfl "boom" rfl

/-- C6: starting from no history, 15 sequential `save_version` calls leave
exactly the entries with versions 6–15 (in order) and exactly those payload
files; in general a successful `save_version` assigns
N = last recorded version + 1 (starting at 1) and the eviction loop keeps the
list length at `min (len + 1) MAX_VERSIONS`. -/
theorem c6_versioning_cap :
    ((iterateSaves ⟨true, true, 3⟩ 15 ⟨[], []⟩).versions.map VersionEntry.version
        = [6, 7, 8, 9, 10, 11, 12, 13, 14, 15] ∧
      (iterateSaves ⟨true, true, 3⟩ 15 ⟨[], []⟩).payloads.map Prod.fst
        = [6, 7, 8, 9, 10, 11, 12, 13, 14, 15]) ∧
    (∀ (file : TargetFile) (st : VersionState) (comment : String) (now : Nat),
      file.pathExists = true → file.isFile = true →
      (save_version file st comment now).2
          = .ok (match st.versions.getLast? with
                 | some v => v.version + 1
                 | none => 1) ∧
      (save_version file st comment now).1.versions.length
          = min (st.versions.length + 1) MAX_VERSIONS) := by
  have evict_len : ∀ (vs : List VersionEntry) (ps : List (Nat × Nat)),
      (evictWhileFull vs ps).1.length = min vs.length (MAX_VERSIONS - 1) := by
    intro vs
    induction vs with
    | nil => intro ps; simp [evictWhileFull, MAX_VERSIONS]
    | cons o rest ih =>
      intro ps
      by_cases h : (o :: rest).length ≥ MAX_VERSIONS
      · rw [evictWhileFull, if_pos h, ih]
        simp only [List.length_cons] at h ⊢
        simp only [MAX_VERSIONS] at h ⊢
        omega
      · rw [evictWhileFull, if_neg h]
        simp only [List.length_cons] at h ⊢
        simp only [MAX_VERSIONS] at h ⊢
        omega
  refine ⟨⟨by decide, by decide⟩, ?_⟩
  intro file st comment now hp hf
  have hval : (file.pathExists && file.isFile) = true := by rw [hp, hf]; rfl
  constructor
  · simp [save_version, hval]
  · simp only [save_version, hval, Bool.not_true, Bool.false_eq_true, if_false,
      List.length_append, List.length_cons, List.length_nil]
    rw [evict_len]
    simp only [MAX_VERSIONS]
    omega

theorem c6_witness :
    (save_version ⟨true, true, 3⟩ ⟨[], []⟩ "" 0).2 = .ok 1 ∧
    (save_version ⟨true, true, 3⟩ ⟨[], []⟩ "" 0).1.versions.length = 1 := by
  have h := c6_versioning_cap.2 ⟨true, true, 3⟩ ⟨[], []⟩ "" 0 rfl rfl
  exact ⟨h.1, by rw [h.2]; decide⟩

/-- C8 counterexample: sanitize is not idempotent.  On
`"UPDATE t SET x=eval\n(q)WHERE 1=1"` the first pass removes only the script
injection `eval\n(` (the SQL `UPDATE … WHERE 1=1` pattern cannot match because
`.*` does not cross the newline); the inserted notice contains no newline, so
the second pass removes a new destructive-SQL match spanning the notice. -/
theorem c8_counterexample :
    (sanitize ((sanitize "UPDATE t SET x=eval\n(q)WHERE 1=1").1)).2 ≠ [] := by
  decide

/-- C8 amended: the redaction notice itself matches none of the five patterns
(sanitizing it removes nothing and leaves it unchanged), but sanitize is not
idempotent after one pass for all inputs: a replacement can splice the text so
that a later pass finds a new match spanning the inserted notice. -/
theorem c8_sanitize_amended :
    sanitize REDACTED_NOTICE = (REDACTED_NOTICE, []) ∧
    ∃ t : String, (sanitize ((sanitize t).1)).2 ≠ [] :=
  ⟨by decide, "UPDATE t SET x=eval\n(q)WHERE 1=1", by decide⟩

/-- C9: the statement text submitted by `query_logs` is built by string
interpolation, so two requests differing only in `search_term` submit
different SQL texts — the filters are not passed as bound parameters. -/
theorem c9_sql_interpolation :
    query_logs_sql ⟨none, none, some "a", none, none⟩
      ≠ query_logs_sql ⟨none, none, some "b", none, none⟩ := by
  decide

/-- C10: `save_version` on a target that does not exist or is not a regular
file returns an error and leaves the version state (meta entries and payload
files) unchanged. -/
theorem c10_save_version_missing_file (file : TargetFile) (st : VersionState)
    (comment : String) (now : Nat)
    (h : ¬(file.pathExists = true ∧ file.isFile = true)) :
    (save_version file st comment now).1 = st ∧
    (save_version file st comment now).2 = .error "File does not exist" := by
  have hb : (file.pathExists && file.isFile) = false := by
    cases hp : file.pathExists <;> cases hf : file.isFile <;> simp_all
  constructor <;> simp [save_version, hb]

theorem c10_witness :
    (save_version ⟨false, true, 0⟩ ⟨[⟨1, 0, 0, "x"⟩], [(1, 0)]⟩ "c" 9).1
        = ⟨[⟨1, 0, 0, "x"⟩], [(1, 0)]⟩ ∧
    (save_version ⟨false, true, 0⟩ ⟨[⟨1, 0, 0, "x"⟩], [(1, 0)]⟩ "c" 9).2
        = .error "File does not exist" :=
  c10_save_version_missing_file ⟨false, true, 0⟩ ⟨[⟨1, 0, 0, "x"⟩], [(1, 0)]⟩ "c" 9
    (by simp)

/-! ### Chunker lemmas (towards C7) -/

theorem width_pos (c : Char) : 1 ≤ width c := Char.utf8Size_pos c

theorem blen_append (a b : List Char) : blen (a ++ b) = blen a + blen b := by
  induction a with
  | nil => simp [blen]
  | cons c t ih =>
    show width c + blen (t ++ b) = blen (c :: t) + blen b
    rw [ih]
    show width c + (blen t + blen b) = width c + blen t + blen b
    omega

theorem blen_pos (l : List Char) (h : l ≠ []) : 1 ≤ blen l := by
  cases l with
  | nil => exact absurd rfl h
  | cons c t =>
    have := width_pos c
    simp only [blen]
    omega

theorem len_le_blen (l : List Char) : l.length ≤ blen l := by
  induction l with
  | nil => simp [blen]
  | cons c t ih =>
    have := width_pos c
    simp only [blen, List.length_cons]
    omega

theorem takeB_mono_len : ∀ (l : List Char) (n m : Nat), n ≤ m →
    (takeB l n).length ≤ (takeB l m).length := by
  intro l
  induction l with
  | nil => intro n m _; simp [takeB]
  | cons c t ih =>
    intro n m hnm
    by_cases hn : n = 0
    · simp [takeB, hn]
    · have hm : ¬ m = 0 := by omega
      simp only [takeB, if_neg hn, if_neg hm, List.length_cons]
      exact Nat.succ_le_succ (ih _ _ (by omega))

theorem takeB_append_dropB : ∀ (l : List Char) (n : Nat), takeB l n ++ dropB l n = l := by
  intro l
  induction l with
  | nil => intro n; rfl
  | cons c t ih =>
    intro n
    by_cases hn : n = 0
    · simp [takeB, dropB, hn]
    · simp [takeB, dropB, hn, ih]

theorem boundaryB_zero (l : List Char) : boundaryB l 0 = true := by
  cases l <;> rfl

theorem boundaryB_cons_add (c : Char) (t : List Char) (m : Nat) :
    boundaryB (c :: t) (width c + m) = boundaryB t m := by
  have hw := width_pos c
  obtain ⟨n, hn⟩ : ∃ n, width c + m = n + 1 := ⟨width c + m - 1, by omega⟩
  rw [hn]
  show (if width c ≤ n + 1 then boundaryB t (n + 1 - width c) else false) = boundaryB t m
  rw [if_pos (by omega)]
  congr 1
  omega

theorem boundaryB_prefix (x : List Char) : ∀ (y : List Char),
    boundaryB (x ++ y) (blen x) = true := by
  induction x with
  | nil => intro y; exact boundaryB_zero y
  | cons c t ih =>
    intro y
    show boundaryB (c :: (t ++ y)) (width c + blen t) = true
    rw [boundaryB_cons_add]
    exact ih y

theorem blen_takeB : ∀ (l : List Char) (n : Nat), boundaryB l n = true →
    blen (takeB l n) = n := by
  intro l
  induction l with
  | nil =>
    intro n h
    cases n with
    | zero => rfl
    | succ n => simp [boundaryB] at h
  | cons c t ih =>
    intro n h
    cases n with
    | zero => rfl
    | succ n =>
      simp only [boundaryB] at h
      by_cases hw : width c ≤ n + 1
      · rw [if_pos hw] at h
        have hrec := ih _ h
        rw [show takeB (c :: t) (n + 1) = c :: takeB t (n + 1 - width c) from by
          simp [takeB]]
        show width c + blen (takeB t (n + 1 - width c)) = n + 1
        rw [hrec]
        omega
      · rw [if_neg hw] at h
        cases h

theorem ceil_le_blen : ∀ (l : List Char) (p : Nat),
    ceil_char_boundary l p ≤ blen l := by
  intro l
  induction l with
  | nil => intro p; simp [ceil_char_boundary, blen]
  | cons c t ih =>
    intro p
    by_cases hp : p = 0
    · simp [ceil_char_boundary, hp]
    · simp only [ceil_char_boundary, if_neg hp, blen]
      exact Nat.add_le_add_left (ih _) _

theorem ceil_ge_min : ∀ (l : List Char) (p : Nat),
    min p (blen l) ≤ ceil_char_boundary l p := by
  intro l
  induction l with
  | nil => intro p; simp [ceil_char_boundary, blen]
  | cons c t ih =>
    intro p
    by_cases hp : p = 0
    · simp [ceil_char_boundary, hp]
    · simp only [ceil_char_boundary, if_neg hp, blen]
      have := ih (p - width c)
      have := width_pos c
      omega

theorem boundary_ceil : ∀ (l : List Char) (p : Nat),
    boundaryB l (ceil_char_boundary l p) = true := by
  intro l
  induction l with
  | nil => intro p; rfl
  | cons c t ih =>
    intro p
    by_cases hp : p = 0
    · simp only [ceil_char_boundary, if_pos hp]
      exact boundaryB_zero _
    · simp only [ceil_char_boundary, if_neg hp]
      rw [boundaryB_cons_add]
      exact ih _

theorem floor_le : ∀ (l : List Char) (p : Nat), floor_char_boundary l p ≤ p := by
  intro l
  induction l with
  | nil => intro p; simp [floor_char_boundary]
  | cons c t ih =>
    intro p
    by_cases hp : p < width c
    · simp [floor_char_boundary, hp]
    · simp only [floor_char_boundary, if_neg hp]
      have := ih (p - width c)
      omega

theorem boundary_floor : ∀ (l : List Char) (p : Nat),
    boundaryB l (floor_char_boundary l p) = true := by
  intro l
  induction l with
  | nil => intro p; rfl
  | cons c t ih =>
    intro p
    by_cases hp : p < width c
    · simp only [floor_char_boundary, if_pos hp]
      exact boundaryB_zero _
    · simp only [floor_char_boundary, if_neg hp]
      rw [boundaryB_cons_add]
      exact ih _

theorem len_takeB_ceil : ∀ (l : List Char) (p : Nat),
    (takeB l (ceil_char_boundary l p)).length ≤ p := by
  intro l
  induction l with
  | nil => intro p; simp [ceil_char_boundary, takeB]
  | cons c t ih =>
    intro p
    by_cases hp : p = 0
    · simp [ceil_char_boundary, hp, takeB]
    · simp only [ceil_char_boundary, if_neg hp]
      have hw := width_pos c
      rw [show takeB (c :: t) (width c + ceil_char_boundary t (p - width c))
          = c :: takeB t (width c + ceil_char_boundary t (p - width c) - width c) from by
        simp [takeB]
        omega]
      rw [show width c + ceil_char_boundary t (p - width c) - width c
          = ceil_char_boundary t (p - width c) from by omega]
      have := ih (p - width c)
      simp only [List.length_cons]
      omega

theorem ceil_take_offset : ∀ (l : List Char) (start d : Nat), boundaryB l start = true →
    (takeB (dropB l start) (ceil_char_boundary l (start + d) - start)).length ≤ d := by
  intro l
  induction l with
  | nil =>
    intro start d _
    simp [dropB, takeB]
  | cons c t ih =>
    intro start d h
    by_cases hs : start = 0
    · subst hs
      rw [show dropB (c :: t) 0 = c :: t from by simp [dropB]]
      simpa using len_takeB_ceil (c :: t) d
    · obtain ⟨n, rfl⟩ : ∃ n, start = n + 1 := ⟨start - 1, by omega⟩
      simp only [boundaryB] at h
      by_cases hw : width c ≤ n + 1
      · rw [if_pos hw] at h
        rw [show dropB (c :: t) (n + 1) = dropB t (n + 1 - width c) from by simp [dropB]]
        rw [show ceil_char_boundary (c :: t) (n + 1 + d)
            = width c + ceil_char_boundary t (n + 1 + d - width c) from by
          simp [ceil_char_boundary]]
        rw [show n + 1 + d - width c = (n + 1 - width c) + d from by omega]
        rw [show width c + ceil_char_boundary t ((n + 1 - width c) + d) - (n + 1)
            = ceil_char_boundary t ((n + 1 - width c) + d) - (n + 1 - width c) from by omega]
        exact ih (n + 1 - width c) d h
      · rw [if_neg hw] at h
        cases h

theorem slice_blen_offset : ∀ (l : List Char) (start q : Nat), boundaryB l start = true →
    blen (takeB (dropB l start) (ceil_char_boundary l q - start))
      = ceil_char_boundary l q - start := by
  intro l
  induction l with
  | nil =>
    intro start q _
    simp [dropB, takeB, ceil_char_boundary, blen]
  | cons c t ih =>
    intro start q h
    by_cases hs : start = 0
    · subst hs
      rw [show dropB (c :: t) 0 = c :: t from by simp [dropB]]
      simpa using blen_takeB (c :: t) _ (boundary_ceil (c :: t) q)
    · obtain ⟨n, rfl⟩ : ∃ n, start = n + 1 := ⟨start - 1, by omega⟩
      simp only [boundaryB] at h
      by_cases hw : width c ≤ n + 1
      · rw [if_pos hw] at h
        rw [show dropB (c :: t) (n + 1) = dropB t (n + 1 - width c) from by simp [dropB]]
        by_cases hq : q = 0
        · simp [ceil_char_boundary, hq, takeB, blen]
          cases dropB t (n + 1 - width c) <;> simp [takeB, blen]
        · rw [show ceil_char_boundary (c :: t) q
              = width c + ceil_char_boundary t (q - width c) from by
            simp [ceil_char_boundary, hq]]
          rw [show width c + ceil_char_boundary t (q - width c) - (n + 1)
              = ceil_char_boundary t (q - width c) - (n + 1 - width c) from by omega]
          exact ih (n + 1 - width c) (q - width c) h
      · rw [if_neg hw] at h
        cases h

theorem rfindBGo_spec (pat : List Char) : ∀ (s : List Char) (acc : Nat)
    (best : Option Nat) (pos : Nat),
    rfindBGo pat s acc best = some pos →
    (∃ l1 l2, s = l1 ++ pat ++ l2 ∧ pos = acc + blen l1) ∨ best = some pos := by
  intro s
  induction s with
  | nil =>
    intro acc best pos h
    simp only [rfindBGo] at h
    by_cases hp : pat.isPrefixOf ([] : List Char) = true
    · rw [if_pos hp] at h
      have hpat : pat = [] := List.prefix_nil.mp (List.isPrefixOf_iff_prefix.mp hp)
      cases h
      left
      exact ⟨[], [], by simp [hpat], by simp [blen]⟩
    · rw [if_neg hp] at h
      right
      exact h
  | cons c t ih =>
    intro acc best pos h
    simp only [rfindBGo] at h
    rcases ih (acc + width c) _ pos h with ⟨l1, l2, hs, hpos⟩ | hbest
    · left
      refine ⟨c :: l1, l2, by simp [hs], ?_⟩
      simp only [blen] at hpos ⊢
      omega
    · by_cases hp : pat.isPrefixOf (c :: t) = true
      · rw [if_pos hp] at hbest
        cases hbest
        left
        obtain ⟨l2, hl2⟩ := List.isPrefixOf_iff_prefix.mp hp
        exact ⟨[], l2, by simp [hl2.symm], by simp [blen]⟩
      · rw [if_neg hp] at hbest
        right
        exact hbest

theorem rfindB_spec (s pat : List Char) (pos : Nat) (h : rfindB s pat = some pos) :
    ∃ l1 l2, s = l1 ++ pat ++ l2 ∧ pos = blen l1 := by
  rcases rfindBGo_spec pat s 0 none pos h with ⟨l1, l2, hs, hpos⟩ | hbest
  · exact ⟨l1, l2, hs, by omega⟩
  · cases hbest

/-! ### Trim lemmas -/

theorem dropWhile_head_not (p : Char → Bool) : ∀ (l : List Char) (a : Char),
    (l.dropWhile p).head? = some a → p a = false := by
  intro l
  induction l with
  | nil => intro a h; simp at h
  | cons c t ih =>
    intro a h
    by_cases hc : p c = true
    · rw [List.dropWhile_cons, if_pos hc] at h
      exact ih a h
    · rw [List.dropWhile_cons, if_neg hc] at h
      have hac : c = a := by simpa using h
      subst hac
      simpa using hc

theorem dropWhile_eq_self_of_head (p : Char → Bool) (l : List Char)
    (h : ∀ a, l.head? = some a → p a = false) : l.dropWhile p = l := by
  cases l with
  | nil => rfl
  | cons c t =>
    rw [List.dropWhile_cons, if_neg (by simp [h c rfl])]

theorem trim_len_le (l : List Char) : (trim l).length ≤ l.length := by
  unfold trim
  calc (((l.dropWhile isWS).reverse.dropWhile isWS).reverse).length
      = ((l.dropWhile isWS).reverse.dropWhile isWS).length := List.length_reverse _
    _ ≤ (l.dropWhile isWS).reverse.length := (List.dropWhile_suffix _).length_le
    _ = (l.dropWhile isWS).length := List.length_reverse _
    _ ≤ l.length := (List.dropWhile_suffix _).length_le

theorem trim_head_not (l : List Char) :
    ∀ a, (trim l).head? = some a → isWS a = false := by
  intro a ha
  unfold trim at ha
  have hpre : ((l.dropWhile isWS).reverse.dropWhile isWS).reverse <+: l.dropWhile isWS := by
    have h1 : (l.dropWhile isWS).reverse.dropWhile isWS <:+ (l.dropWhile isWS).reverse :=
      List.dropWhile_suffix isWS
    have h2 := List.reverse_prefix.mpr h1
    rwa [List.reverse_reverse] at h2
  obtain ⟨rest, hrest⟩ := hpre
  cases hbr : ((l.dropWhile isWS).reverse.dropWhile isWS).reverse with
  | nil => rw [hbr] at ha; simp at ha
  | cons x xs =>
    rw [hbr] at ha hrest
    have hax : x = a := by simpa using ha
    subst hax
    apply dropWhile_head_not isWS l
    rw [← hrest]
    rfl

theorem trim_idem (l : List Char) : trim (trim l) = trim l := by
  have h1 : (trim l).dropWhile isWS = trim l :=
    dropWhile_eq_self_of_head isWS (trim l) (trim_head_not l)
  show (((trim l).dropWhile isWS).reverse.dropWhile isWS).reverse = trim l
  rw [h1]
  have h2 : (trim l).reverse = (l.dropWhile isWS).reverse.dropWhile isWS := by
    show (((l.dropWhile isWS).reverse.dropWhile isWS).reverse).reverse = _
    rw [List.reverse_reverse]
  rw [h2]
  rw [dropWhile_eq_self_of_head isWS ((l.dropWhile isWS).reverse.dropWhile isWS)
    (fun a h => dropWhile_head_not isWS (l.dropWhile isWS).reverse a h)]
  unfold trim
  rfl

/-! ### Break points stay inside the segment and on char boundaries -/

theorem fbp_case (t : List Char) (start mEnd pos K : Nat) (pat : List Char)
    (hb : boundaryB t start = true) (hse : start ≤ mEnd)
    (hblen : blen (sliceB t start mEnd) = mEnd - start)
    (hpat : pat ≠ []) (hK : K = blen pat)
    (hfind : rfindB (sliceB t start mEnd) pat = some pos) :
    start < start + pos + K ∧ start + pos + K ≤ mEnd ∧
      boundaryB t (start + pos + K) = true := by
  obtain ⟨l1, l2, hs, hpos⟩ := rfindB_spec (sliceB t start mEnd) pat pos hfind
  have hKpos : 1 ≤ blen pat := blen_pos pat hpat
  have h1 : takeB t start ++ dropB t start = t := takeB_append_dropB t start
  have h2 : sliceB t start mEnd ++ dropB (dropB t start) (mEnd - start) = dropB t start :=
    takeB_append_dropB (dropB t start) (mEnd - start)
  have h3 : t = takeB t start ++ l1 ++ pat ++ (l2 ++ dropB (dropB t start) (mEnd - start)) := by
    conv_lhs => rw [← h1, ← h2, hs]
    simp only [List.append_assoc]
  have h4 : blen (takeB t start ++ l1 ++ pat) = start + pos + K := by
    rw [blen_append, blen_append, blen_takeB t start hb]
    omega
  have h5 := boundaryB_prefix (takeB t start ++ l1 ++ pat)
    (l2 ++ dropB (dropB t start) (mEnd - start))
  rw [h4] at h5
  have h6 : blen l1 + blen pat + blen l2 = mEnd - start := by
    rw [← hblen, hs, blen_append, blen_append]
  refine ⟨by omega, by omega, ?_⟩
  rw [h3]
  exact h5

theorem find_break_point_spec (t : List Char) (start mEnd : Nat)
    (hb : boundaryB t start = true) (hbe : boundaryB t mEnd = true)
    (hblen : blen (sliceB t start mEnd) = mEnd - start)
    (hlt : start < mEnd) :
    start < find_break_point t start mEnd ∧
    find_break_point t start mEnd ≤ mEnd ∧
    boundaryB t (find_break_point t start mEnd) = true := by
  have hse : start ≤ mEnd := Nat.le_of_lt hlt
  unfold find_break_point
  cases h1 : rfindB (sliceB t start mEnd) ['\n', '\n'] with
  | some pos =>
    exact fbp_case t start mEnd pos 2 ['\n', '\n'] hb hse hblen (by decide) (by decide) h1
  | none =>
  cases h2 : rfindB (sliceB t start mEnd) ['\n'] with
  | some pos =>
    exact fbp_case t start mEnd pos 1 ['\n'] hb hse hblen (by decide) (by decide) h2
  | none =>
  cases h3 : rfindB (sliceB t start mEnd) "。".data with
  | some pos =>
    exact fbp_case t start mEnd pos (blen "。".data) "。".data hb hse hblen (by decide) rfl h3
  | none =>
  cases h4 : rfindB (sliceB t start mEnd) "？".data with
  | some pos =>
    exact fbp_case t start mEnd pos (blen "？".data) "？".data hb hse hblen (by decide) rfl h4
  | none =>
  cases h5 : rfindB (sliceB t start mEnd) "！".data with
  | some pos =>
    exact fbp_case t start mEnd pos (blen "！".data) "！".data hb hse hblen (by decide) rfl h5
  | none =>
  cases h6 : rfindB (sliceB t start mEnd) ". ".data with
  | some pos =>
    exact fbp_case t start mEnd pos (blen ". ".data) ". ".data hb hse hblen (by decide) rfl h6
  | none =>
  cases h7 : rfindB (sliceB t start mEnd) "? ".data with
  | some pos =>
    exact fbp_case t start mEnd pos (blen "? ".data) "? ".data hb hse hblen (by decide) rfl h7
  | none =>
  cases h8 : rfindB (sliceB t start mEnd) "! ".data with
  | some pos =>
    exact fbp_case t start mEnd pos (blen "! ".data) "! ".data hb hse hblen (by decide) rfl h8
  | none =>
  cases h9 : rfindB (sliceB t start mEnd) [' '] with
  | some pos =>
    exact fbp_case t start mEnd pos 1 [' '] hb hse hblen (by decide) (by decide) h9
  | none =>
    exact ⟨hlt, Nat.le_refl _, hbe⟩

theorem chunkActualEnd_spec (t : List Char) (mx start : Nat) (hmx : 1 ≤ mx)
    (hb : boundaryB t start = true) (hlt : start < blen t) :
    start < chunkActualEnd t mx start ∧
    chunkActualEnd t mx start ≤ ceil_char_boundary t (min (start + mx) (blen t)) ∧
    boundaryB t (chunkActualEnd t mx start) = true := by
  have hq1 : start + 1 ≤ min (start + mx) (blen t) :=
    Nat.le_min.mpr ⟨by omega, hlt⟩
  have hcge := ceil_ge_min t (min (start + mx) (blen t))
  have hmin2 : min (min (start + mx) (blen t)) (blen t) = min (start + mx) (blen t) :=
    Nat.min_eq_left (Nat.min_le_right _ _)
  have hegt : start < ceil_char_boundary t (min (start + mx) (blen t)) := by
    rw [hmin2] at hcge
    omega
  have hbe : boundaryB t (ceil_char_boundary t (min (start + mx) (blen t))) = true :=
    boundary_ceil t _
  have hblen : blen (sliceB t start (ceil_char_boundary t (min (start + mx) (blen t))))
      = ceil_char_boundary t (min (start + mx) (blen t)) - start :=
    slice_blen_offset t start _ hb
  unfold chunkActualEnd
  by_cases hcase : ceil_char_boundary t (min (start + mx) (blen t)) < blen t
  · rw [if_pos hcase]
    exact find_break_point_spec t start _ hb hbe hblen hegt
  · rw [if_neg hcase]
    exact ⟨hegt, Nat.le_refl _, hbe⟩

theorem chunkStart2_boundary (t : List Char) (mx ov start : Nat) (hmx : 1 ≤ mx)
    (hb : boundaryB t start = true) (hlt : start < blen t) :
    boundaryB t (chunkStart2 t mx ov start) = true := by
  have hae := chunkActualEnd_spec t mx start hmx hb hlt
  unfold chunkStart2
  by_cases h1 : chunkNextStart t ov (chunkActualEnd t mx start) ≤ start
  · rw [if_pos h1]
    exact hae.2.2
  · rw [if_neg h1]
    unfold chunkNextStart
    by_cases h2 : ov < chunkActualEnd t mx start
    · rw [if_pos h2]
      exact boundary_floor t _
    · rw [if_neg h2]
      exact hae.2.2

theorem chunk_piece_len (t : List Char) (mx start : Nat) (hmx : 1 ≤ mx)
    (hb : boundaryB t start = true) (hlt : start < blen t) :
    (trim (sliceB t start (chunkActualEnd t mx start))).length ≤ mx := by
  have hae := chunkActualEnd_spec t mx start hmx hb hlt
  have hqle : min (start + mx) (blen t) ≤ start + mx := Nat.min_le_left _ _
  have hqge : start ≤ min (start + mx) (blen t) := Nat.le_min.mpr ⟨by omega, by omega⟩
  have h1 := ceil_take_offset t start (min (start + mx) (blen t) - start) hb
  rw [show start + (min (start + mx) (blen t) - start) = min (start + mx) (blen t) from by
    omega] at h1
  have h2 : (takeB (dropB t start) (chunkActualEnd t mx start - start)).length
      ≤ (takeB (dropB t start)
          (ceil_char_boundary t (min (start + mx) (blen t)) - start)).length :=
    takeB_mono_len _ _ _ (by have := hae.2.1; omega)
  calc (trim (sliceB t start (chunkActualEnd t mx start))).length
      ≤ (sliceB t start (chunkActualEnd t mx start)).length := trim_len_le _
    _ = (takeB (dropB t start) (chunkActualEnd t mx start - start)).length := rfl
    _ ≤ (takeB (dropB t start)
          (ceil_char_boundary t (min (start + mx) (blen t)) - start)).length := h2
    _ ≤ min (start + mx) (blen t) - start := h1
    _ ≤ mx := by omega

/-! ### The chunking loop produces trimmed, bounded, densely indexed chunks -/

theorem chunkLoop_spec (t : List Char) (mx ov : Nat) (hmx : 1 ≤ mx) :
    ∀ (fuel start idx : Nat), boundaryB t start = true →
      ∀ ch ∈ chunkLoop t mx ov fuel start idx,
        ch.text ≠ [] ∧ trim ch.text = ch.text ∧ ch.text.length ≤ mx := by
  intro fuel
  induction fuel with
  | zero =>
    intro start idx _ ch hch
    simp [chunkLoop] at hch
  | succ fuel ih =>
    intro start idx hb ch hch
    simp only [chunkLoop] at hch
    by_cases hlt : start < blen t
    · rw [if_pos hlt] at hch
      have hb2 : boundaryB t (chunkStart2 t mx ov start) = true :=
        chunkStart2_boundary t mx ov start hmx hb hlt
      by_cases hemp : (trim (sliceB t start (chunkActualEnd t mx start))).isEmpty = true
      · rw [if_pos hemp] at hch
        exact ih _ idx hb2 ch hch
      · rw [if_neg hemp] at hch
        rcases List.mem_cons.mp hch with rfl | hch'
        · refine ⟨?_, trim_idem _, chunk_piece_len t mx start hmx hb hlt⟩
          intro hnil
          have hnil' : trim (sliceB t start (chunkActualEnd t mx start)) = [] := hnil
          exact hemp (by rw [hnil']; rfl)
        · exact ih _ (idx + 1) hb2 ch hch'
    · rw [if_neg hlt] at hch
      simp at hch

theorem chunkLoop_indices (t : List Char) (mx ov : Nat) :
    ∀ (fuel start idx : Nat),
      (chunkLoop t mx ov fuel start idx).map TextChunk.chunk_index
        = List.range' idx (chunkLoop t mx ov fuel start idx).length := by
  intro fuel
  induction fuel with
  | zero =>
    intro start idx
    simp [chunkLoop]
  | succ fuel ih =>
    intro start idx
    simp only [chunkLoop]
    by_cases hlt : start < blen t
    · rw [if_pos hlt]
      by_cases hemp : (trim (sliceB t start (chunkActualEnd t mx start))).isEmpty = true
      · rw [if_pos hemp]
        exact ih _ idx
      · rw [if_neg hemp]
        simp only [List.map_cons, List.length_cons]
        rw [ih (chunkStart2 t mx ov start) (idx + 1)]
        rfl
    · rw [if_neg hlt]
      rfl

/-- C7: for every input text, `max_chunk_size ≥ 1` and any overlap, every chunk
emitted by `chunk_text` has non-empty trimmed text of at most `max_chunk_size`
characters, and the `chunk_index` values are the dense consecutive integers
`0, 1, 2, …`. -/
theorem c7_chunker_bounds (text : List Char) (maxChunkSize overlap : Nat)
    (hmax : 1 ≤ maxChunkSize) :
    (∀ ch ∈ chunk_text text maxChunkSize overlap,
        ch.text ≠ [] ∧ trim ch.text = ch.text ∧ ch.text.length ≤ maxChunkSize) ∧
    (chunk_text text maxChunkSize overlap).map TextChunk.chunk_index
      = List.range (chunk_text text maxChunkSize overlap).length := by
  unfold chunk_text
  by_cases h1 : (trim text).isEmpty = true
  · rw [if_pos h1]
    exact ⟨fun ch hch => absurd hch (List.not_mem_nil ch), rfl⟩
  · rw [if_neg h1]
    by_cases h2 : blen (trim text) ≤ maxChunkSize
    · rw [if_pos h2]
      constructor
      · intro ch hch
        have hch' : ch = ⟨trim text, 0⟩ := by simpa using hch
        subst hch'
        refine ⟨?_, trim_idem text, ?_⟩
        · intro hnil
          have hnil' : trim text = [] := hnil
          exact h1 (by rw [hnil']; rfl)
        · calc (trim text).length ≤ blen (trim text) := len_le_blen _
            _ ≤ maxChunkSize := h2
      · rfl
    · rw [if_neg h2]
      refine ⟨?_, ?_⟩
      · intro ch hch
        exact chunkLoop_spec (trim text) maxChunkSize overlap hmax
          (blen (trim text) + 1) 0 0 (boundaryB_zero _) ch hch
      · rw [chunkLoop_indices (trim text) maxChunkSize overlap (blen (trim text) + 1) 0 0]
        rw [List.range_eq_range']

theorem c7_witness :
    1 ≤ 3 ∧
    ((∀ ch ∈ chunk_text "ab cd".data 3 1,
        ch.text ≠ [] ∧ trim ch.text = ch.text ∧ ch.text.length ≤ 3) ∧
    (chunk_text "ab cd".data 3 1).map TextChunk.chunk_index
      = List.range (chunk_text "ab cd".data 3 1).length) :=
  ⟨by decide, c7_chunker_bounds "ab cd".data 3 1 (by decide)⟩


end LlmProxy
